import Mathlib

/-!
Verification development for the asm-processor core (Rust implementation:
`src/rust/src/preprocess.rs` and `src/rust/src/postprocess.rs`).

The Rust code is shallowly embedded: pure data is translated to Lean
structures, stateful loops to explicit state passing, machine integers to
`Nat`/`Int` with explicit `% 2^32` where wrap-around matters, and fallible
code to `Except`.  Byte strings are modelled as `List Nat` (each element a
byte value) and Rust `String`s as Lean `String`s; the sources treated here
only ever slice strings at ASCII boundaries, where Rust's byte indices and
our character indices coincide.

Code of the crate that is not part of the two given source files (the
`GlobalState` helpers such as `make_name`, `func_prologue`, the dummy-float
generator, the text-encoding layer and path handling) is modelled from the
specification; every such definition carries a doc comment starting with
`Modelled from the spec:`.
-/

deriving instance DecidableEq for Except

namespace AsmProc

/-- The five sections tracked by the preprocessor (`enum Section`). -/
inductive Sec where
  | text
  | data
  | rodata
  | lateRodata
  | bss
deriving DecidableEq, Repr

/-- `Section::from_str` in `preprocess.rs`. -/
def Sec.fromStr (name : String) : Option Sec :=
  match name with
  | ".text" => some .text
  | ".data" => some .data
  | ".rodata" => some .rodata
  | ".late_rodata" => some .lateRodata
  | ".bss" => some .bss
  | _ => none

/-- Structured error kinds; each constructor corresponds to one
`anyhow::anyhow!` site (or `unwrap`/`assert` panic) in the sources. -/
inductive PErr where
  | asciizGlued
  | backslashEol
  | unterminatedString
  | asciiNoString
  | sizeNotMultipleOf4
  | sizeNegative
  | textWithoutGlabel
  | unknownSection
  | lateRodataAlignmentOutside
  | lateRodataAlignmentArg
  | lateRodataAlignmentConflict
  | doubleConflictFromContext
  | doubleConflictExplicit
  | balignUnsupported
  | alignUnsupported
  | unsupportedDirective
  | instrInNonText
  | tooShortText
  | lateRodataRatioTooHigh (size avail : Nat)
  | rodataNotSupportedPascal
  | bssNotSupportedPascal
  | g3RequiresO2
  | recurseWithoutInclude
  | ioError (path : String)
  | outOfFuel
  | parseIntError
  | assertionFailed
  | panicked
  | duplicateSymbol
  | undefinedLocalSymbol
  | anonymousGlobalSymbol
deriving DecidableEq, Repr

/-! ### Character-level helpers for `process_line`

`process_line` preprocesses each line with two regular expressions:
`#.*|/\*.*?\*/|"(?:\\.|[^\\"])*"` (comments replaced by a space, string
literals kept) and `^[a-zA-Z0-9_]+:\s*` (a leading label is dropped).
Both are embedded as character scanners with the same leftmost-match
semantics.
-/

/-- ASCII whitespace as recognised by Rust's `char::is_whitespace` on the
inputs that occur here. -/
def isSpaceChar (c : Char) : Bool :=
  c = ' ' ∨ c = '\t' ∨ c = '\n' ∨ c = '\r'

/-- `[a-zA-Z0-9_]` for the label regex. -/
def isWordChar (c : Char) : Bool :=
  ('a' ≤ c ∧ c ≤ 'z') ∨ ('A' ≤ c ∧ c ≤ 'Z') ∨ ('0' ≤ c ∧ c ≤ '9') ∨ c = '_'

/-- `str::trim` (both ends). -/
def trimChars (l : List Char) : List Char :=
  ((l.dropWhile isSpaceChar).reverse.dropWhile isSpaceChar).reverse

/-- Matches the tail of a string literal, i.e. `(?:\\.|[^\\"])*"` after the
opening quote: returns the matched characters (closing quote included) and
the rest, or `none` if the literal is unterminated. -/
def matchStringTail : List Char → Option (List Char × List Char)
  | [] => none
  | c :: rest =>
    if c = '"' then some (['"'], rest)
    else if c = '\\' then
      match rest with
      | [] => none
      | c2 :: rest2 =>
        match matchStringTail rest2 with
        | some (m, r) => some (c :: c2 :: m, r)
        | none => none
    else
      match matchStringTail rest with
      | some (m, r) => some (c :: m, r)
      | none => none

/-- Finds the end of a lazily matched `/* ... */` comment; returns the rest
after `*/`, or `none` if the comment is unterminated. -/
def findCommentClose : List Char → Option (List Char)
  | [] => none
  | c :: rest =>
    if c = '*' ∧ rest.head? = some '/' then some rest.tail
    else findCommentClose rest

theorem matchStringTail_length_aux : ∀ (n : Nat) (l : List Char), l.length ≤ n →
    ∀ m r, matchStringTail l = some (m, r) → r.length < l.length := by
  intro n
  induction n with
  | zero =>
    intro l hl m r h
    have hnil : l = [] := List.eq_nil_of_length_eq_zero (by omega)
    subst hnil
    exact Option.noConfusion h
  | succ n ih =>
    intro l hl m r h
    match l with
    | [] => exact Option.noConfusion h
    | c :: rest =>
      unfold matchStringTail at h
      by_cases hq : c = '"'
      · rw [if_pos hq] at h
        simp at h
        simp [h.2]
      · rw [if_neg hq] at h
        by_cases hb : c = '\\'
        · rw [if_pos hb] at h
          split at h
          · exact Option.noConfusion h
          · rename_i c2 rest2
            split at h
            · rename_i p m2 r2 heq
              simp at h
              have hlen : rest2.length ≤ n := by simp at hl; omega
              have := ih rest2 hlen m2 r2 heq
              simp [← h.2]
              omega
            · exact Option.noConfusion h
        · rw [if_neg hb] at h
          split at h
          · rename_i p m2 r2 heq
            simp at h
            have hlen : rest.length ≤ n := by simp at hl; omega
            have := ih rest hlen m2 r2 heq
            simp [← h.2]
            omega
          · exact Option.noConfusion h

theorem matchStringTail_length (l : List Char) (m r : List Char)
    (h : matchStringTail l = some (m, r)) : r.length < l.length :=
  matchStringTail_length_aux l.length l (Nat.le_refl _) m r h

theorem findCommentClose_length : ∀ (l r : List Char),
    findCommentClose l = some r → r.length < l.length := by
  intro l
  induction l with
  | nil => simp [findCommentClose]
  | cons c rest ih =>
    intro r h
    simp only [findCommentClose] at h
    split at h
    · simp at h
      simp [← h, List.length_tail]
      omega
    · have := ih r h
      simp at this ⊢
      omega

/-- One pass of `re_comment_or_string.replace_all(line, re_comment_replacer)`:
`#...` and `/* ... */` matches become a single space, string-literal
matches are kept verbatim, unmatched characters are kept.  The `fuel`
argument only serves structural termination; every recursive call strictly
shrinks the character list, so any `fuel ≥ l.length` gives the same result
(`stripCommentsStrings` passes `l.length`). -/
def stripCSFuel : Nat → List Char → List Char
  | 0, l => l
  | _ + 1, [] => []
  | _ + 1, '#' :: _ => [' ']
  | fuel + 1, '/' :: '*' :: rest =>
    match findCommentClose rest with
    | some rest2 => ' ' :: stripCSFuel fuel rest2
    | none => '/' :: stripCSFuel fuel ('*' :: rest)
  | fuel + 1, '"' :: rest =>
    match matchStringTail rest with
    | some (m, r) => '"' :: (m ++ stripCSFuel fuel r)
    | none => '"' :: stripCSFuel fuel rest
  | fuel + 1, c :: rest => c :: stripCSFuel fuel rest

/-- The comment/string regex replacement on a whole line. -/
def stripCommentsStrings (l : List Char) : List Char :=
  stripCSFuel l.length l

/-- `re_label.replace_all(line, "")` with pattern `^[a-zA-Z0-9_]+:\s*`. -/
def stripLabel (l : List Char) : List Char :=
  let pre := l.takeWhile isWordChar
  match l.drop pre.length with
  | ':' :: rest => if pre.isEmpty then l else rest.dropWhile isSpaceChar
  | _ => l

/-- `str::split_whitespace` (non-empty words). -/
def splitWhitespaceChars (l : List Char) : List (List Char) :=
  (l.splitOnP isSpaceChar).filter (fun w => ¬ w.isEmpty)

/-- `str::split(',')` (empty pieces kept). -/
def splitCommaChars (l : List Char) : List (List Char) :=
  l.splitOnP (fun c => c = ',')

/-- `str::parse::<usize>`: optional `+` sign then at least one ASCII digit. -/
def parseUsize (l : List Char) : Except PErr Nat :=
  let l := match l with
    | '+' :: rest => rest
    | _ => l
  if l.isEmpty ∨ ¬ l.all (fun c => '0' ≤ c ∧ c ≤ '9') then
    .error .parseIntError
  else
    .ok (l.foldl (fun acc c => 10 * acc + (c.toNat - '0'.toNat)) 0)

/-- `str::parse::<isize>`: optional sign then at least one ASCII digit. -/
def parseIsize (l : List Char) : Except PErr Int :=
  match l with
  | '-' :: rest => (parseUsize rest).map (fun n => -(n : Int))
  | _ => (parseUsize l).map (fun n => (n : Int))

/-- `str::starts_with` (Rust byte indices and our character indices
coincide on the ASCII prefixes used by the sources). -/
def strStartsWith (s p : String) : Bool :=
  p.data.isPrefixOf s.data

/-- `str::ends_with`. -/
def strEndsWith (s p : String) : Bool :=
  p.data.isSuffixOf s.data

/-- `str::is_empty`. -/
def strIsEmpty (s : String) : Bool :=
  s.data.isEmpty

/-! ### `GlobalAsmBlock` -/

/-- The per-section byte counters (`fn_section_sizes`). -/
structure Sizes where
  text : Nat
  data : Nat
  rodata : Nat
  lateRodata : Nat
  bss : Nat
deriving DecidableEq, Repr

def Sizes.get (s : Sizes) : Sec → Nat
  | .text => s.text
  | .data => s.data
  | .rodata => s.rodata
  | .lateRodata => s.lateRodata
  | .bss => s.bss

def Sizes.set (s : Sizes) : Sec → Nat → Sizes
  | .text, n => { s with text := n }
  | .data, n => { s with data := n }
  | .rodata, n => { s with rodata := n }
  | .lateRodata, n => { s with lateRodata := n }
  | .bss, n => { s with bss := n }

/-- `struct GlobalAsmBlock` from `preprocess.rs`. -/
structure GAB where
  fn_desc : String
  cur_section : Sec
  asm_conts : List String
  late_rodata_asm_conts : List String
  late_rodata_alignment : Nat
  late_rodata_alignment_from_context : Bool
  text_glabels : List String
  fn_section_sizes : Sizes
  fn_ins_inds : List (Nat × Nat)
  glued_line : String
  num_lines : Nat
deriving DecidableEq, Repr

/-- `GlobalAsmBlock::new`. -/
def GAB.new (fn_desc : String) : GAB where
  fn_desc := fn_desc
  cur_section := .text
  asm_conts := []
  late_rodata_asm_conts := []
  late_rodata_alignment := 0
  late_rodata_alignment_from_context := false
  text_glabels := []
  fn_section_sizes := ⟨0, 0, 0, 0, 0⟩
  fn_ins_inds := []
  glued_line := ""
  num_lines := 0

/-- The `while size % n != 0 do size += 1` loop in `GlobalAsmBlock::align`. -/
def alignUp (size n : Nat) : Nat :=
  if size % n = 0 then size else size + (n - size % n)

/-- `GlobalAsmBlock::align`. -/
def GAB.align (b : GAB) (n : Nat) : GAB :=
  { b with fn_section_sizes :=
      b.fn_section_sizes.set b.cur_section (alignUp (b.fn_section_sizes.get b.cur_section) n) }

/-- `GlobalAsmBlock::add_sized`. -/
def GAB.addSized (b : GAB) (size : Int) : Except PErr GAB := do
  if (b.cur_section = .text ∨ b.cur_section = .lateRodata) ∧ size % 4 ≠ 0 then
    throw .sizeNotMultipleOf4
  if size < 0 then
    throw .sizeNegative
  let s := size.toNat
  let b := { b with fn_section_sizes :=
      b.fn_section_sizes.set b.cur_section (b.fn_section_sizes.get b.cur_section + s) }
  if b.cur_section = .text then
    if b.text_glabels.isEmpty then
      throw .textWithoutGlabel
    return { b with fn_ins_inds := b.fn_ins_inds ++ [(b.num_lines - 1, s / 4)] }
  return b

/-- `GlobalAsmBlock::count_quoted_size`, scanning phase.  The Rust code
first passes the line through `output_enc.encode` and a WINDOWS-1252
decode; the encoding layer is an external collaborator (spec section 1) and
is modelled as the identity on the line's characters.  State: characters
left, `z`, `in_quote`, `has_comma`, `num_parts`, `ret`. -/
def cqsLoop : Nat → List Char → Bool → Bool → Bool → Nat → Nat → Except PErr (Nat × Nat)
  | _, [], _, inQuote, _, numParts, ret =>
    if inQuote then .error .unterminatedString
    else .ok (numParts, ret)
  | 0, _ :: _, _, _, _, _, _ => .error .panicked
  | fuel + 1, c :: rest, z, false, hasComma, numParts, ret =>
    if c = '"' then
      if z ∧ ¬ hasComma then .error .asciizGlued
      else cqsLoop fuel rest z true hasComma (numParts + 1) ret
    else if c = ',' then cqsLoop fuel rest z false true numParts ret
    else cqsLoop fuel rest z false hasComma numParts ret
  | fuel + 1, c :: rest, z, true, hasComma, numParts, ret =>
    if c = '"' then cqsLoop fuel rest z false false numParts ret
    else if c ≠ '\\' then cqsLoop fuel rest z true hasComma numParts (ret + 1)
    else
      match rest with
      | [] => .error .backslashEol
      | c2 :: rest2 =>
        if c2 = 'x' then
          cqsLoop fuel (rest2.dropWhile (fun d => '0' ≤ d ∧ d ≤ '9'))
            z true hasComma numParts (ret + 1)
        else if '0' ≤ c2 ∧ c2 ≤ '9' then
          let dropped := (rest2.takeWhile (fun d => '0' ≤ d ∧ d ≤ '9')).take 2
          cqsLoop fuel (rest2.drop dropped.length) z true hasComma numParts (ret + 1)
        else
          cqsLoop fuel rest2 z true hasComma numParts (ret + 1)

/-- `GlobalAsmBlock::count_quoted_size` (scan phase, started with enough
fuel that the fuel-exhaustion branch is unreachable). -/
def countQuotedSize (line : List Char) (z : Bool) : Except PErr Nat := do
  let (numParts, ret) ← cqsLoop line.length line z false true 0 0
  if numParts = 0 then
    throw .asciiNoString
  return ret + (if z then numParts else 0)

/-- `line.split(',')` on a string. -/
def commaPieces (s : String) : List String :=
  (splitCommaChars s.data).map String.mk

/-- `line.split_whitespace().nth(n)` on a string. -/
def swNth (s : String) (n : Nat) : Option String :=
  ((splitWhitespaceChars s.data).map String.mk)[n]?

/-- The comment/string replacement, trim and label strip applied to a line
at the start of `process_line`. -/
def cleanLine (s : String) : String :=
  String.mk (stripLabel (trimChars (stripCommentsStrings s.data)))

/-- The big directive dispatch in `process_line` (the `if`/`else if` chain
on the cleaned line).  Returns the updated block together with the
`changed_section` and `emitting_double` flags. -/
def GAB.dispatch (b : GAB) (line : String) : Except PErr (GAB × Bool × Bool) := do
  if strIsEmpty line then
    return (b, false, false)
  else if strStartsWith line "glabel " ∨ strStartsWith line "dlabel " ∨ strStartsWith line "jlabel "
      ∨ strStartsWith line "endlabel " ∨ (¬ line.data.contains ' ' ∧ strEndsWith line ":") then
    return (b, false, false)
  else if strStartsWith line ".section"
      ∨ line = ".text" ∨ line = ".data" ∨ line = ".rdata" ∨ line = ".rodata"
      ∨ line = ".bss" ∨ line = ".late_rodata" then
    if line = ".rdata" then
      return ({ b with cur_section := .rodata }, true, false)
    else
      let firstArg := (commaPieces line).headD ""
      match (splitWhitespaceChars firstArg.data).getLast? with
      | none => throw .panicked
      | some w =>
        match Sec.fromStr (String.mk w) with
        | none => throw .unknownSection
        | some s => return ({ b with cur_section := s }, true, false)
  else if strStartsWith line ".late_rodata_alignment" then
    if b.cur_section ≠ .lateRodata then
      throw .lateRodataAlignmentOutside
    let value ← match swNth line 1 with
      | some w => parseUsize w.data
      | none => throw .panicked
    if value ≠ 4 ∧ value ≠ 8 then
      throw .lateRodataAlignmentArg
    if b.late_rodata_alignment ≠ 0 ∧ b.late_rodata_alignment ≠ value then
      throw .lateRodataAlignmentConflict
    return ({ b with late_rodata_alignment := value }, true, false)
  else if strStartsWith line ".incbin" then
    let piece := ((commaPieces line).getLast?).getD ""
    let size ← parseIsize (trimChars piece.data)
    let b ← b.addSized size
    return (b, false, false)
  else if strStartsWith line ".word" ∨ strStartsWith line ".gpword" ∨ strStartsWith line ".float" then
    let b := b.align 4
    let b ← b.addSized (4 * (commaPieces line).length)
    return (b, false, false)
  else if strStartsWith line ".double" then
    let b := b.align 4
    if b.cur_section = .lateRodata then
      let align8 := b.fn_section_sizes.lateRodata % 8
      if b.late_rodata_alignment = 0 then
        let b := { b with late_rodata_alignment := 8 - align8,
                          late_rodata_alignment_from_context := true }
        let b ← b.addSized (8 * (commaPieces line).length)
        return (b, false, true)
      else if b.late_rodata_alignment ≠ 8 - align8 then
        if b.late_rodata_alignment_from_context then
          throw .doubleConflictFromContext
        else
          throw .doubleConflictExplicit
      else
        let b ← b.addSized (8 * (commaPieces line).length)
        return (b, false, true)
    else
      return (b, false, false)
  else if strStartsWith line ".space" then
    let size ← match swNth line 1 with
      | some w => parseIsize w.data
      | none => throw .panicked
    let b ← b.addSized size
    return (b, false, false)
  else if strStartsWith line ".balign" then
    let align ← match swNth line 1 with
      | some w => parseIsize w.data
      | none => throw .panicked
    if align ≠ 4 then
      throw .balignUnsupported
    return (b.align 4, false, false)
  else if strStartsWith line ".align" then
    let align ← match swNth line 1 with
      | some w => parseIsize w.data
      | none => throw .panicked
    if align ≠ 2 then
      throw .alignUnsupported
    return (b.align 4, false, false)
  else if strStartsWith line ".asci" then
    let z := strStartsWith line ".asciz" ∨ strStartsWith line ".asciiz"
    let n ← countQuotedSize line.data z
    let b ← b.addSized n
    return (b, false, false)
  else if strStartsWith line ".byte" then
    let b ← b.addSized (commaPieces line).length
    return (b, false, false)
  else if strStartsWith line ".half" ∨ strStartsWith line ".hword" ∨ strStartsWith line ".short" then
    let b := b.align 2
    let b ← b.addSized (2 * (commaPieces line).length)
    return (b, false, false)
  else if strStartsWith line ".size" then
    return (b, false, false)
  else if strStartsWith line "." then
    throw .unsupportedDirective
  else
    if b.cur_section ≠ .text then
      throw .instrInNonText
    let b ← b.addSized 4
    return (b, false, false)

/-- `GlobalAsmBlock::process_line`. -/
def GAB.processLine (b : GAB) (line0 : String) : Except PErr GAB := do
  let b := { b with num_lines := b.num_lines + 1 }
  if strEndsWith line0 "\\" then
    return { b with glued_line := b.glued_line ++ String.mk line0.data.dropLast }
  let line1 := b.glued_line ++ line0
  let b := { b with glued_line := "" }
  let realLine := line1
  let line := cleanLine line1
  let b ← if (strStartsWith line "glabel " ∨ strStartsWith line "jlabel ")
      ∧ b.cur_section = Sec.text then
      match (splitWhitespaceChars line.data)[1]? with
      | some w => pure { b with text_glabels := b.text_glabels ++ [String.mk w] }
      | none => throw PErr.panicked
    else
      pure b
  let (b, changedSection, emittingDouble) ← b.dispatch line
  if b.cur_section = Sec.lateRodata then
    if ¬ changedSection then
      let mid := if emittingDouble then [".align 0", realLine, ".align 2"] else [realLine]
      return { b with late_rodata_asm_conts := b.late_rodata_asm_conts ++ mid }
    else
      return b
  else
    return { b with asm_conts := b.asm_conts ++ [realLine] }

/-- Folds `process_line` over a list of lines. -/
def GAB.processLines (b : GAB) (lines : List String) : Except PErr GAB :=
  lines.foldlM GAB.processLine b

/-! ### `GlobalState` and the replacement-code synthesizer

`GlobalState` and its helpers live in the crate root, which is not among
the given source files; they are modelled from the specification
(sections 3, 4.D and 4.F).
-/

/-- Decimal representation of a `Nat` (the `{}` formatting of `usize`
used when the sources synthesize names, array sizes and case labels).
The fuel-style first argument makes the recursion structural; it is called
with `n` itself, which always suffices. -/
def decReprAux : Nat → Nat → List Char
  | 0, _ => []
  | _, 0 => []
  | fuel + 1, n => decReprAux fuel (n / 10) ++ [Char.ofNat (48 + n % 10)]

/-- Decimal representation of a `Nat`. -/
def decRepr (n : Nat) : String :=
  if n = 0 then "0" else String.mk (decReprAux n n)

/-- `Vec::join(sep)`. -/
def joinSep (sep : String) : List String → String
  | [] => ""
  | [x] => x
  | x :: xs => x ++ sep ++ joinSep sep xs

/-- `usize` subtraction as compiled in release mode: wrap-around modulo
`2^64` on underflow. -/
def wrappingSub64 (a b : Nat) : Nat :=
  (a + (2 ^ 64 - b % 2 ^ 64)) % 2 ^ 64

/-- Modelled from the spec: `GlobalState` (crate root, not under the given
sources) holds the options `{min_instr_count, skip_instr_count,
use_jtbl_for_rodata, prelude_if_late_rodata, mips1, pascal}`, a running
counter of synthesized unique names, and the deterministic dummy-float
generator's position. -/
structure GlobalState where
  min_instr_count : Nat
  skip_instr_count : Nat
  use_jtbl_for_rodata : Bool
  prelude_if_late_rodata : Nat
  mips1 : Bool
  pascal : Bool
  namectr : Nat
  lateRodataHex : Nat
deriving DecidableEq, Repr

/-- Modelled from the spec: `GlobalState::new` with fresh counters. -/
def GlobalState.new (minInstr skipInstr : Nat) (useJtbl : Bool) (prelude0 : Nat)
    (mips1 pascal : Bool) : GlobalState where
  min_instr_count := minInstr
  skip_instr_count := skipInstr
  use_jtbl_for_rodata := useJtbl
  prelude_if_late_rodata := prelude0
  mips1 := mips1
  pascal := pascal
  namectr := 0
  lateRodataHex := 0

/-- Modelled from the spec: synthesized object names use the reserved
`_asmpp_` identifier space and a running counter, so each generated name is
globally unique (sections 4.D and 6). -/
def GlobalState.makeName (g : GlobalState) (cat : String) : String × GlobalState :=
  ("_asmpp_" ++ cat ++ "_" ++ decRepr (g.namectr + 1), { g with namectr := g.namectr + 1 })

/-- Modelled from the spec: the dummy-float generator produces a
deterministic, monotonically advancing, non-repeating stream of 4-byte
patterns (section 4.F).  The exact bit patterns are opaque to callers; no
claim treated here depends on them. -/
def GlobalState.nextLateRodataHex (g : GlobalState) : List Nat × GlobalState :=
  let v := 0xE0123456 + g.lateRodataHex
  ([v / 0x1000000 % 256, v / 0x10000 % 256, v / 256 % 256, v % 256],
    { g with lateRodataHex := g.lateRodataHex + 1 })

/-- Modelled from the spec: the synthesized function prologue, a single
line of C or Pascal appended to an existing output slot (section 4.D). -/
def GlobalState.funcPrologue (g : GlobalState) (name : String) : String :=
  if g.pascal then "procedure " ++ name ++ "; begin" else "void " ++ name ++ "(void) \x7b"

/-- Modelled from the spec: the synthesized function epilogue. -/
def GlobalState.funcEpilogue (g : GlobalState) : String :=
  if g.pascal then "end;" else "\x7d"

/-- Modelled from the spec: the Pascal dummy volatile integer assignment
(one nonempty statement per emitted instruction). -/
def pascalAssignmentInt : String := "i := 0;"

/-- Modelled from the spec: the Pascal dummy volatile float assignment.
The floating-point literal text is abstracted; only the one-line, nonempty
shape of the statement enters any claim. -/
def pascalAssignmentFloat : String := "f := 0.0;"

/-- Modelled from the spec: the Pascal dummy volatile double assignment. -/
def pascalAssignmentDouble : String := "d := 0.0;"

/-- The C dummy statement `*(volatile float*)0 = {:?}f;` of
`GlobalAsmBlock::finish`; the `f32` literal text is abstracted to a fixed
placeholder (floating-point formatting has no shallow embedding), which is
sound for every claim here: only the statement count and nonemptiness of
these lines are ever used. -/
def floatLine : String := "*(volatile float*)0 = 0.0f;"

/-- The C dummy statement `*(volatile double*)0 = {:?};`, literal text
abstracted as for `floatLine`. -/
def doubleLine : String := "*(volatile double*)0 = 0.0;"

/-- One `case {}:` label of the C jump-table expression. -/
def jtblCaseC (k : Nat) : String := "case " ++ decRepr k ++ ":"

/-- The C jump-table expression
`switch (*(volatile int*)0) { case 0: ... ; }` over `n` cases. -/
def jtblLineC (n : Nat) : String :=
  "switch (*(volatile int*)0) \x7b " ++ joinSep " " ((List.range n).map jtblCaseC) ++ " ; \x7d"

/-- One `{}: ;` arm of the Pascal jump-table expression. -/
def jtblCaseP (k : Nat) : String := decRepr k ++ ": ;"

/-- The Pascal jump-table expression `case 0 of ... otherwise end;`. -/
def jtblLineP (n : Nat) : String :=
  "case 0 of " ++ joinSep " " ((List.range n).map jtblCaseP) ++ " otherwise end;"

/-- The `(jtbl_size, jtbl_min_rodata_size)` table in
`GlobalAsmBlock::finish` (match on `(pascal, mips1)`). -/
def jtblParams (pascal mips1 : Bool) : Nat × Nat :=
  match pascal, mips1 with
  | true, true => (9, 2)
  | true, false => (8, 2)
  | false, true => (11, 5)
  | false, false => (9, 5)

/-- Result of the late-rodata generation loop in `finish`:
`late_rodata_fn_output`, `late_rodata_dummy_bytes`, `jtbl_rodata_size`,
the threaded state and the `extra_mips1_nop` flag. -/
structure LateGenResult where
  out : List String
  dummies : List (List Nat)
  jtblSize : Nat
  g : GlobalState
  extraNop : Bool
deriving DecidableEq, Repr

/-- The `for i in 0..size` late-rodata generation loop of `finish`
(`preprocess.rs` lines 410-485).  `fuel` is the number of remaining
iterations (`size - i`); each call performs the iteration for index `i`.
The `num_instr - late_rodata_fn_output.len()` subtraction is on `usize`
and is modelled with release-mode wrap-around. -/
def lateGenLoop (b : GAB) (numInstr size : Nat) :
    Nat → Nat → Bool → Bool → Bool → List String → List (List Nat) → GlobalState →
    LateGenResult
  | 0, _, _, _, extraNop, out, dummies, g => ⟨out, dummies, 0, g, extraNop⟩
  | fuel + 1, i, skipNext, needsDouble, extraNop, out, dummies, g =>
    if skipNext then
      lateGenLoop b numInstr size fuel (i + 1) false needsDouble extraNop out dummies g
    else if ¬ needsDouble ∧ g.use_jtbl_for_rodata ∧ 1 ≤ i
        ∧ (jtblParams g.pascal g.mips1).2 ≤ size - i
        ∧ (jtblParams g.pascal g.mips1).1 + 1 ≤ wrappingSub64 numInstr out.length then
      let jtblSz := (jtblParams g.pascal g.mips1).1
      let line := if g.pascal then jtblLineP (size - i) else jtblLineC (size - i)
      ⟨out ++ [line] ++ List.replicate (jtblSz - 1) "", dummies, (size - i) * 4, g,
        decide (i ≠ 2)⟩
    else
      let (dummyBytes, g) := g.nextLateRodataHex
      let dummies := dummies ++ [dummyBytes]
      if b.late_rodata_alignment = 4 * ((i + 1) % 2 + 1) ∧ i + 1 < size then
        let (dummyBytes2, g) := g.nextLateRodataHex
        let dummies := dummies ++ [dummyBytes2]
        let line := if g.pascal then pascalAssignmentDouble else doubleLine
        let out := out ++ [line] ++ (if g.mips1 then ["", ""] else []) ++ ["", ""]
        lateGenLoop b numInstr size fuel (i + 1) true false false out dummies g
      else
        let line := if g.pascal then pascalAssignmentFloat else floatLine
        let out := out ++ [line] ++ ["", ""]
        lateGenLoop b numInstr size fuel (i + 1) false needsDouble true out dummies g

/-- The late-rodata generation phase of `finish` (lines 394-490),
including the trailing `mips1` extra nop. -/
def lateGen (b : GAB) (g : GlobalState) : LateGenResult :=
  if 0 < b.fn_section_sizes.lateRodata then
    let size := b.fn_section_sizes.lateRodata / 4
    let numInstr := b.fn_section_sizes.text / 4
    let needsDouble := b.late_rodata_alignment ≠ 0
    let r := lateGenLoop b numInstr size size 0 false needsDouble false [] [] g
    if g.mips1 ∧ r.extraNop then { r with out := r.out ++ [""] } else r
  else
    ⟨[], [], 0, g, false⟩

/-- Replaces element `i` of `l` by `f l[i]` (or leaves `l` unchanged when
`i` is out of range); models `src[i] = ...` / `src[i] += ...` writes. -/
def modifyAt (l : List String) (i : Nat) (f : String → String) : List String :=
  match l, i with
  | [], _ => []
  | x :: xs, 0 => f x :: xs
  | x :: xs, n + 1 => x :: modifyAt xs n f

/-- `MAX_FN_SIZE` from `GlobalAsmBlock`. -/
def MAX_FN_SIZE : Nat := 100

/-- The mutable state of the statement-emission loop in `finish`
(`preprocess.rs` lines 502-557).  `stack` holds the not-yet-consumed
entries of `late_rodata_fn_output` in order: the Rust code reverses the
list into `rodata_stack` and pops/inspects the vector's tail, which is the
head of the remaining output. -/
structure EmitState where
  src : List String
  g : GlobalState
  totEmitted : Nat
  totSkipped : Nat
  fnEmitted : Nat
  fnSkipped : Nat
  skipping : Bool
  stack : List String
deriving DecidableEq, Repr

/-- One iteration of the inner `for _ in 0..*count` body of the emission
loop in `finish`: function splitting, skip handling, statement emission. -/
def emitOne (instrCount : Nat) (line : Nat) (st : EmitState) : EmitState :=
  let st :=
    if MAX_FN_SIZE < st.fnEmitted
        ∧ st.g.min_instr_count < wrappingSub64 instrCount st.totEmitted
        ∧ (st.stack = [] ∨ st.stack.headD "" ≠ "") then
      let (name, g2) := st.g.makeName "large_func"
      { st with
        fnEmitted := 0
        fnSkipped := 0
        skipping := true
        g := g2
        src := modifyAt st.src line
          (fun s => s ++ " " ++ g2.funcEpilogue ++ " " ++ g2.funcPrologue name ++ " ") }
    else st
  let st :=
    if st.skipping ∧ st.fnSkipped <
        st.g.skip_instr_count + (if st.stack ≠ [] then st.g.prelude_if_late_rodata else 0) then
      { st with fnSkipped := st.fnSkipped + 1, totSkipped := st.totSkipped + 1 }
    else
      let st := { st with skipping := false }
      match st.stack with
      | top :: rest =>
        { st with stack := rest, src := modifyAt st.src line (fun s => s ++ top) }
      | [] =>
        if st.g.pascal then
          { st with src := modifyAt st.src line (fun s => s ++ pascalAssignmentInt) }
        else
          { st with src := modifyAt st.src line (fun s => s ++ "*(volatile int*)0 = 0;") }
  { st with totEmitted := st.totEmitted + 1, fnEmitted := st.fnEmitted + 1 }

/-- Applies `emitOne` `count` times at the same line index. -/
def emitCount (instrCount : Nat) (line : Nat) : Nat → EmitState → EmitState
  | 0, st => st
  | n + 1, st => emitCount instrCount line n (emitOne instrCount line st)

/-- The whole emission loop `for (line, count) in &self.fn_ins_inds`. -/
def emitAll (instrCount : Nat) (inds : List (Nat × Nat)) (st : EmitState) : EmitState :=
  inds.foldl (fun st lc => emitCount instrCount lc.1 lc.2 st) st

/-- The `Function` record handed from the preprocessor to the
postprocessor (crate root); its `data` hash map with the four fixed keys
`.text`, `.data`, `.rodata`, `.bss` is flattened into four fields. -/
structure Function where
  text_glabels : List String
  asm_conts : List String
  late_rodata_dummy_bytes : List (List Nat)
  jtbl_rodata_size : Nat
  late_rodata_asm_conts : List String
  fn_desc : String
  dataText : Option String × Nat
  dataData : Option String × Nat
  dataRodata : Option String × Nat
  dataBss : Option String × Nat
deriving DecidableEq, Repr

/-- The trailing filler-object part of `GlobalAsmBlock::finish`
(`preprocess.rs` lines 571-652): the `.rodata`, `.data` and `.bss` filler
declarations appended to the last line, and the assembly of the returned
`Function` record. -/
def finishFillers (b : GAB) (src : List String) (textName : Option String)
    (lr : LateGenResult) (g : GlobalState) :
    Except PErr (List String × Function × GlobalState) := do
  let (src, rodataName, g) ←
    if 0 < b.fn_section_sizes.rodata then do
      if g.pascal then
        throw PErr.rodataNotSupportedPascal
      let (newName, g) := g.makeName "rodata"
      pure (modifyAt src b.num_lines
        (fun s => s ++ " const char " ++ newName ++ "[" ++
          decRepr b.fn_section_sizes.rodata ++ "] = \x7b1\x7d;"), some newName, g)
    else
      pure (src, none, g)
  let (src, dataName, g) ←
    if 0 < b.fn_section_sizes.data then do
      let (newName, g) := g.makeName "data"
      let piece :=
        if g.pascal then
          " var " ++ newName ++ ": packed array[1.." ++
            decRepr b.fn_section_sizes.data ++ "] of char := [otherwise: 0];"
        else
          " char " ++ newName ++ "[" ++ decRepr b.fn_section_sizes.data ++ "] = \x7b1\x7d;"
      pure (modifyAt src b.num_lines (fun s => s ++ piece), some newName, g)
    else
      pure (src, none, g)
  let (src, bssName, g) ←
    if 0 < b.fn_section_sizes.bss then do
      let (newName, g) := g.makeName "bss"
      if g.pascal then
        throw PErr.bssNotSupportedPascal
      pure (modifyAt src b.num_lines
        (fun s => s ++ " char " ++ newName ++ "[" ++
          decRepr b.fn_section_sizes.bss ++ "];"), some newName, g)
    else
      pure (src, none, g)
  let retFn : Function :=
    { text_glabels := b.text_glabels
      asm_conts := b.asm_conts
      late_rodata_dummy_bytes := lr.dummies
      jtbl_rodata_size := lr.jtblSize
      late_rodata_asm_conts := b.late_rodata_asm_conts
      fn_desc := b.fn_desc
      dataText := (textName, b.fn_section_sizes.text)
      dataData := (dataName, b.fn_section_sizes.data)
      dataRodata := (rodataName, b.fn_section_sizes.rodata)
      dataBss := (bssName, b.fn_section_sizes.bss) }
  return (src, retFn, g)

/-- The total per-entry count of `fn_ins_inds` (the number of iterations
of the emission loop, i.e. the text instruction count for any block built
by `process_line`). -/
def sumCounts (inds : List (Nat × Nat)) : Nat :=
  (inds.map Prod.snd).sum

/-- The state of `finish`'s emission loop after it has run: prologue and
epilogue are written over the first and last slots, then every
`fn_ins_inds` entry is emitted (`preprocess.rs` lines 494-557). -/
def finishEmitRun (b : GAB) (g : GlobalState) : EmitState :=
  let lr := lateGen b g
  let (newName, g2) := lr.g.makeName "func"
  let src := modifyAt (List.replicate (b.num_lines + 1) "") 0 (fun _ => g2.funcPrologue newName)
  let src := modifyAt src b.num_lines (fun _ => g2.funcEpilogue)
  emitAll (b.fn_section_sizes.text / 4) b.fn_ins_inds ⟨src, g2, 0, 0, 0, 0, true, lr.out⟩

/-- `GlobalAsmBlock::finish`.  Returns the synthesized source lines, the
`Function` record and the threaded `GlobalState`. -/
def GAB.finish (b : GAB) (g : GlobalState) : Except PErr (List String × Function × GlobalState) := do
  let src := List.replicate (b.num_lines + 1) ""
  let lr := lateGen b g
  if 0 < b.fn_section_sizes.text ∨ lr.out ≠ [] then
    let newName := (lr.g.makeName "func").1
    if b.fn_section_sizes.text / 4 < lr.g.min_instr_count then
      throw PErr.tooShortText
    else
      let final := finishEmitRun b g
      if final.stack ≠ [] then
        throw (PErr.lateRodataRatioTooHigh (lr.out.length / 3)
          (wrappingSub64 (b.fn_section_sizes.text / 4) final.totSkipped))
      else
        finishFillers b final.src (some newName) lr final.g
  else
    finishFillers b src none lr lr.g

/-! ### `parse_source`

The top-level preprocessor loop.  File-system reads are replaced by an
explicit environment mapping file names to their lines (the result of
`read_to_string(..)?.lines()`), and the recursion of
`#pragma asmproc recurse` is bounded by a fuel parameter (the Rust code
recurses unboundedly on cyclic includes).
-/

/-- `OptLevel` from the crate root (the choice of -O0, -O1, -O2 or -g). -/
inductive OptLevel where
  | O0
  | O1
  | O2
  | G
deriving DecidableEq, Repr

/-- The subset of `AsmProcArgs` consulted by `parse_source`. -/
structure Args where
  opt : OptLevel
  g3 : Bool
  framepointer : Bool
  kpic : Bool
  mips1 : Bool
  pascal : Bool
  encode_cutscene_data_float_encoding : Bool
deriving DecidableEq, Repr

/-- The `(min_instr_count, skip_instr_count)` table at the top of
`parse_source` (lines 669-692). -/
def optCounts (args : Args) : Except PErr (Nat × Nat) :=
  match args.opt, args.g3 with
  | .O0, false => .ok (if args.framepointer then (8, 8) else (4, 4))
  | .O1, false => .ok (if args.framepointer then (6, 5) else (2, 1))
  | .O2, false => .ok (if args.framepointer then (6, 5) else (2, 1))
  | .G, false => .ok (if args.framepointer then (7, 7) else (4, 4))
  | .O2, true => .ok (if args.framepointer then (4, 4) else (2, 2))
  | _, _ => .error .g3RequiresO2

/-- The kpic adjustment and `use_jtbl_for_rodata` computation of
`parse_source` (lines 694-716), producing the initial `GlobalState`. -/
def mkGlobalState (args : Args) : Except PErr GlobalState := do
  let (minI, skipI) ← optCounts args
  let (minI, skipI, prelude0) :=
    if args.kpic then
      if args.opt = .O2 ∨ args.g3 then (minI, skipI, 3)
      else (minI + 3, skipI + 3, 0)
    else (minI, skipI, 0)
  let useJtbl := (args.opt = .O2 ∨ args.g3) ∧ ¬ args.framepointer ∧ ¬ args.kpic
  return GlobalState.new minI skipI useJtbl prelude0 args.mips1 args.pascal

/-- The file system visible to `parse_source`: file name to lines. -/
def Env : Type := List (String × List String)

/-- `read_to_string(path)?.lines()` against the environment. -/
def readLines (env : Env) (path : String) : Except PErr (List String) :=
  match env.lookup path with
  | some lines => .ok lines
  | none => .error (.ioError path)

/-- `Path::exists`. -/
def pathExists (env : Env) (path : String) : Bool :=
  (env.lookup path).isSome

/-- Modelled from the spec: path handling is an external collaborator
(section 1).  `Path::parent` as used on the relative paths here: the part
before the last `/`, or the empty path. -/
def pathParent (p : String) : String :=
  String.mk (((p.data.reverse.dropWhile (fun c => c ≠ '/')).drop 1).reverse)

/-- Modelled from the spec: `Path::join` on the relative paths used here. -/
def pathJoin (dir f : String) : String :=
  if strIsEmpty dir then f else dir ++ "/" ++ f

/-- Modelled from the spec: `Path::file_name` — the part after the last
`/`. -/
def pathFileName (p : String) : String :=
  String.mk ((p.data.reverse.takeWhile (fun c => c ≠ '/')).reverse)

/-- `str::trim` on a string. -/
def strTrim (s : String) : String :=
  String.mk (trimChars s.data)

/-- `str::trim_end`. -/
def strTrimEnd (s : String) : String :=
  String.mk ((s.data.reverse.dropWhile isSpaceChar).reverse)

/-- Whether `sub` occurs as a contiguous substring (`str::contains`). -/
def infixAux (sub : List Char) : List Char → Bool
  | [] => sub.isEmpty
  | c :: rest => sub.isPrefixOf (c :: rest) ∨ infixAux sub rest

/-- `str::contains(sub)`. -/
def strContainsSub (s sub : String) : Bool :=
  infixAux sub.data s.data

/-- `str::split_once(sub)`: the pieces before and after the first
occurrence of `sub`. -/
def splitOnceChars (sub : List Char) : List Char → Option (List Char × List Char)
  | [] => if sub.isEmpty then some ([], []) else none
  | c :: rest =>
    if sub.isPrefixOf (c :: rest) then some ([], (c :: rest).drop sub.length)
    else
      match splitOnceChars sub rest with
      | some (b, a) => some (c :: b, a)
      | none => none

/-- Index of the first occurrence of a character (`str::find(char)`). -/
def findCharIdx (c : Char) : List Char → Option Nat
  | [] => none
  | x :: rest =>
    if x = c then some 0
    else
      match findCharIdx c rest with
      | some i => some (i + 1)
      | none => none

/-- Modelled from the spec: the cutscene-array opening test, i.e. the
regex `CutsceneData (.|\n)*\[\] = \{` applied to a single line: some text
`CutsceneData` followed later by `[] = {`. -/
def cutsceneIsMatch (line : String) : Bool :=
  match splitOnceChars "CutsceneData".data line.data with
  | some (_, after) => infixAux "[] = \x7b".data after
  | none => false

/-- Modelled from the spec: `float_re.replace_all(raw_line, repl_float_hex)`
replaces each float literal by its IEEE-754 bits as a decimal integer
(section 4.C, optional cutscene rewriting).  Floating-point parsing has no
shallow embedding here; since no claim treated in this file depends on the
rewritten text (only on the one-line shape, which the rewrite preserves),
the transformation is abstracted as the identity on the line. -/
def floatReplace (s : String) : String := s

/-- The running state of the `parse_source` line loop. -/
structure PState where
  gstate : GlobalState
  globalAsm : Option (GAB × Nat)
  asmFunctions : List Function
  outputLines : List String
  deps : List String
  isCutsceneData : Bool
  isEarlyInclude : Bool
deriving DecidableEq, Repr

/-- `RunResult`: the synthesized functions, the include dependencies and
the output.  `output_lines` is the `Vec<String>` of output slots before
joining; `output` is the emitted byte stream.  The text-encoding layer is
an external collaborator and is modelled as the identity, under which the
`encode` and non-`encode` paths of `parse_source` emit the same bytes:
every line followed by a newline. -/
structure RunResult where
  functions : List Function
  deps : List String
  output_lines : List String
  output : String
deriving DecidableEq, Repr

/-- Writes the list `src` into consecutive slots of `out` starting at
`start` (`output_lines[start_index + i] = line2`). -/
def writeSrcAt (out : List String) (start : Nat) : List String → List String
  | [] => out
  | s :: rest => writeSrcAt (modifyAt out start (fun _ => s)) (start + 1) rest

/-- Overwrites slot `i` (`output_lines[i] = v`). -/
def setSlot (out : List String) (i : Nat) (v : String) : List String :=
  modifyAt out i (fun _ => v)

/-- One iteration of the `for (line_no, line) in ...lines().enumerate()`
loop of `parse_source`.  `recurse` performs the recursive
`parse_source(&fname, args, false)` call of the early-include branch. -/
def parseOneLine (env : Env) (args : Args) (infile : String)
    (recurse : String → Except PErr RunResult)
    (lineNo : Nat) (line0 : String) (st : PState) : Except PErr PState := do
  let rawLine := strTrim line0
  let line := rawLine
  let st := { st with outputLines := st.outputLines ++ [""] }
  match st.globalAsm with
  | some (gasm, startIndex) =>
    if strStartsWith line ")" then do
      let (src, fn, gstate) ← gasm.finish st.gstate
      return { st with
        gstate := gstate
        outputLines := writeSrcAt st.outputLines startIndex src
        asmFunctions := st.asmFunctions ++ [fn]
        globalAsm := none }
    else do
      let gasm ← gasm.processLine rawLine
      return { st with globalAsm := some (gasm, startIndex) }
  | none =>
    if line = "GLOBAL_ASM(" ∨ line = "#pragma GLOBAL_ASM(" then
      let gasm := GAB.new ("GLOBAL_ASM block at line " ++ decRepr lineNo)
      return { st with globalAsm := some (gasm, st.outputLines.length) }
    else if ((strStartsWith line "GLOBAL_ASM(\"" ∨ strStartsWith line "#pragma GLOBAL_ASM(\"")
          ∧ strEndsWith line "\")")
        ∨ ((strStartsWith line "INCLUDE_ASM(\"" ∨ strStartsWith line "INCLUDE_RODATA(\"")
          ∧ strContainsSub line "\"," ∧ strEndsWith line ");") then do
      let (prologue, fname) ←
        if strStartsWith line "INCLUDE_" then
          match splitOnceChars "\",".data line.data with
          | none => throw PErr.panicked
          | some (before, after) =>
            match findCharIdx '(' before with
            | none => throw PErr.panicked
            | some idx =>
              let fname := String.mk (before.drop (idx + 2)) ++ "/" ++
                strTrim (String.mk ((trimChars after).take (after.length - 3))) ++ ".s"
              if strStartsWith line "INCLUDE_RODATA" then
                pure ([".section .rodata"], fname)
              else
                pure (([] : List String), fname)
        else
          match findCharIdx '(' line.data with
          | none => throw PErr.panicked
          | some idx =>
            pure ([], String.mk ((line.data.take (line.data.length - 2)).drop (idx + 2)))
      let gasm := GAB.new fname
      let gasm ← gasm.processLines (prologue.map strTrimEnd)
      if ¬ pathExists env fname then
        let slots := setSlot st.outputLines (st.outputLines.length - 1)
          ("#include \"GLOBAL_ASM:" ++ fname ++ "\"")
        return { st with outputLines := slots }
      let fileLines ← readLines env fname
      let gasm ← gasm.processLines (fileLines.map strTrimEnd)
      let (src, fn, gstate) ← gasm.finish st.gstate
      return { st with
        gstate := gstate
        outputLines := setSlot st.outputLines (st.outputLines.length - 1) (joinSep "" src)
        asmFunctions := st.asmFunctions ++ [fn]
        deps := st.deps ++ [fname] }
    else if line = "#pragma asmproc recurse" then
      return { st with isEarlyInclude := true }
    else if st.isEarlyInclude then do
      let st := { st with isEarlyInclude := false }
      if ¬ strStartsWith line "#include " then
        throw PErr.recurseWithoutInclude
      let idx ← match findCharIdx ' ' line.data with
        | some i => pure i
        | none => throw PErr.panicked
      let fname := pathJoin (pathParent infile) (strTrim (String.mk (line.data.drop (idx + 2))))
      let st := { st with deps := st.deps ++ [fname] }
      let res ← recurse fname
      let resStr := res.output ++ "#line " ++ decRepr (lineNo + 1) ++ " \"" ++
        pathFileName infile ++ "\""
      let slots := setSlot st.outputLines (st.outputLines.length - 1) resStr
      return { st with deps := st.deps ++ res.deps, outputLines := slots }
    else
      let (st, rawLine) :=
        if args.encode_cutscene_data_float_encoding then
          let st :=
            if cutsceneIsMatch line then { st with isCutsceneData := true }
            else if strEndsWith line "\x7d;" then { st with isCutsceneData := false }
            else st
          if st.isCutsceneData then (st, floatReplace rawLine) else (st, rawLine)
        else
          (st, rawLine)
      let slots := setSlot st.outputLines (st.outputLines.length - 1) rawLine
      return { st with outputLines := slots }

/-- Folds `parseOneLine` over the numbered input lines. -/
def parseLinesGo (env : Env) (args : Args) (infile : String)
    (recurse : String → Except PErr RunResult) :
    List (Nat × String) → PState → Except PErr PState
  | [], st => .ok st
  | (lineNo, l) :: rest, st => do
    let st ← parseOneLine env args infile recurse lineNo l st
    parseLinesGo env args infile recurse rest st

/-- `parse_source`, with recursion depth bounded by `fuel` (the Rust code
recurses without bound; any fuel larger than the include nesting depth
gives the code's behavior). -/
def parseSourceFuel : Nat → Env → Args → String → Bool → Except PErr RunResult
  | 0, _, _, _, _ => .error .outOfFuel
  | fuel + 1, env, args, infile, _encode => do
    let gstate ← mkGlobalState args
    let lines ← readLines env infile
    let init : PState :=
      { gstate := gstate
        globalAsm := none
        asmFunctions := []
        outputLines := ["#line 1 \"" ++ infile ++ "\""]
        deps := []
        isCutsceneData := false
        isEarlyInclude := false }
    let numbered := lines.enum.map (fun p => (p.1 + 1, p.2))
    let final ← parseLinesGo env args infile
      (fun f => parseSourceFuel fuel env args f false) numbered init
    return { functions := final.asmFunctions
             deps := final.deps
             output_lines := final.outputLines
             output := joinSep "\n" final.outputLines ++ "\n" }

example :
    ((GAB.new "t").processLines [".late_rodata", ".word 1,2,3"]).map
      (fun b => b.fn_section_sizes.lateRodata) = .ok 12 := by decide

example :
    ((GAB.new "t").processLines ["glabel foo", "nop /* x */", "li $a0, 5 # c"]).map
      (fun b => (b.fn_section_sizes.text, b.fn_ins_inds)) = .ok (8, [(1, 1), (2, 1)]) := by
  decide

/-! ### ELF postprocessor (`postprocess.rs`)

Byte buffers are `List Nat` with each element a byte value; reads out of
range yield 0 (the Rust code would panic there; every theorem about these
readers carries in-range hypotheses).
-/

/-- `binrw::Endian`. -/
inductive Endian where
  | little
  | big
deriving DecidableEq, Repr

/-- Byte `i` of a buffer. -/
def byteAt (d : List Nat) (i : Nat) : Nat :=
  d.getD i 0

/-- `u16::read_options(_, endian, _)` at a byte offset. -/
def readU16 (e : Endian) (d : List Nat) (off : Nat) : Nat :=
  match e with
  | .big => byteAt d off * 2 ^ 8 + byteAt d (off + 1)
  | .little => byteAt d (off + 1) * 2 ^ 8 + byteAt d off

/-- `u32::read_options(_, endian, _)` at a byte offset. -/
def readU32 (e : Endian) (d : List Nat) (off : Nat) : Nat :=
  match e with
  | .big =>
    byteAt d off * 2 ^ 24 + byteAt d (off + 1) * 2 ^ 16 +
      byteAt d (off + 2) * 2 ^ 8 + byteAt d (off + 3)
  | .little =>
    byteAt d (off + 3) * 2 ^ 24 + byteAt d (off + 2) * 2 ^ 16 +
      byteAt d (off + 1) * 2 ^ 8 + byteAt d off

/-- `u16::write_options`. -/
def writeU16 (e : Endian) (v : Nat) : List Nat :=
  match e with
  | .big => [v / 2 ^ 8 % 256, v % 256]
  | .little => [v % 256, v / 2 ^ 8 % 256]

/-- `u32::write_options`. -/
def writeU32 (e : Endian) (v : Nat) : List Nat :=
  match e with
  | .big => [v / 2 ^ 24 % 256, v / 2 ^ 16 % 256, v / 2 ^ 8 % 256, v % 256]
  | .little => [v % 256, v / 2 ^ 8 % 256, v / 2 ^ 16 % 256, v / 2 ^ 24 % 256]

/-- `u32` wrapping subtraction (`u32::wrapping_sub`). -/
def wrappingSub32 (a b : Nat) : Nat :=
  (a + (2 ^ 32 - b % 2 ^ 32)) % 2 ^ 32

/-- `struct Hdrr`: the 96-byte `.mdebug` header record; two `u16` fields
followed by 23 `u32` fields. -/
structure Hdrr where
  magic : Nat
  vstamp : Nat
  iline_max : Nat
  cb_line : Nat
  cb_line_offset : Nat
  idn_max : Nat
  cb_dn_offset : Nat
  ipd_max : Nat
  cb_pd_offset : Nat
  isym_max : Nat
  cb_sym_offset : Nat
  iopt_max : Nat
  cb_opt_offset : Nat
  iaux_max : Nat
  cb_aux_offset : Nat
  iss_max : Nat
  cb_ss_offset : Nat
  iss_ext_max : Nat
  cb_ss_ext_offset : Nat
  ifd_max : Nat
  cb_fd_offset : Nat
  crfd : Nat
  cb_rfd_offset : Nat
  iext_max : Nat
  cb_ext_offset : Nat
deriving DecidableEq, Repr

/-- `Hdrr::read_options`: parse the header record from the front of the
section payload. -/
def parseHdrr (e : Endian) (d : List Nat) : Hdrr where
  magic := readU16 e d 0
  vstamp := readU16 e d 2
  iline_max := readU32 e d 4
  cb_line := readU32 e d 8
  cb_line_offset := readU32 e d 12
  idn_max := readU32 e d 16
  cb_dn_offset := readU32 e d 20
  ipd_max := readU32 e d 24
  cb_pd_offset := readU32 e d 28
  isym_max := readU32 e d 32
  cb_sym_offset := readU32 e d 36
  iopt_max := readU32 e d 40
  cb_opt_offset := readU32 e d 44
  iaux_max := readU32 e d 48
  cb_aux_offset := readU32 e d 52
  iss_max := readU32 e d 56
  cb_ss_offset := readU32 e d 60
  iss_ext_max := readU32 e d 64
  cb_ss_ext_offset := readU32 e d 68
  ifd_max := readU32 e d 72
  cb_fd_offset := readU32 e d 76
  crfd := readU32 e d 80
  cb_rfd_offset := readU32 e d 84
  iext_max := readU32 e d 88
  cb_ext_offset := readU32 e d 92

/-- `Hdrr::write_options`: serialize the header record (96 bytes). -/
def serializeHdrr (e : Endian) (h : Hdrr) : List Nat :=
  writeU16 e h.magic ++ writeU16 e h.vstamp ++
  writeU32 e h.iline_max ++ writeU32 e h.cb_line ++ writeU32 e h.cb_line_offset ++
  writeU32 e h.idn_max ++ writeU32 e h.cb_dn_offset ++
  writeU32 e h.ipd_max ++ writeU32 e h.cb_pd_offset ++
  writeU32 e h.isym_max ++ writeU32 e h.cb_sym_offset ++
  writeU32 e h.iopt_max ++ writeU32 e h.cb_opt_offset ++
  writeU32 e h.iaux_max ++ writeU32 e h.cb_aux_offset ++
  writeU32 e h.iss_max ++ writeU32 e h.cb_ss_offset ++
  writeU32 e h.iss_ext_max ++ writeU32 e h.cb_ss_ext_offset ++
  writeU32 e h.ifd_max ++ writeU32 e h.cb_fd_offset ++
  writeU32 e h.crfd ++ writeU32 e h.cb_rfd_offset ++
  writeU32 e h.iext_max ++ writeU32 e h.cb_ext_offset

/-- The `relocate` closure applied to each `(count, byte_offset)` pair of
`Section::relocate_mdebug`: the offset is shifted (with `u32` wrap-around)
exactly when the count is non-zero. -/
def relocPair (shiftBy : Nat) (a b : Nat) : Nat :=
  if a ≠ 0 then (b + shiftBy) % 2 ^ 32 else b

/-- `Section::relocate_mdebug` (`postprocess.rs` lines 408-439): parses the
`HDRR` from the section data, shifts the eleven `byte_offset` fields whose
count field is non-zero by `sh_offset.wrapping_sub(original_offset)`, and
replaces the section data by the 96 serialized header bytes
(`self.data = new_data.to_vec()` where `new_data: [u8; Hdrr::SIZE]`). -/
def relocateMdebug (shOffset originalOffset : Nat) (e : Endian) (data : List Nat) :
    Except PErr (List Nat) := do
  let shiftBy := wrappingSub32 shOffset originalOffset
  let hdrr := parseHdrr e data
  if hdrr.magic ≠ 0x7009 then
    throw PErr.assertionFailed
  let hdrr := { hdrr with
    cb_line_offset := relocPair shiftBy hdrr.cb_line hdrr.cb_line_offset
    cb_dn_offset := relocPair shiftBy hdrr.idn_max hdrr.cb_dn_offset
    cb_pd_offset := relocPair shiftBy hdrr.ipd_max hdrr.cb_pd_offset
    cb_sym_offset := relocPair shiftBy hdrr.isym_max hdrr.cb_sym_offset
    cb_opt_offset := relocPair shiftBy hdrr.iopt_max hdrr.cb_opt_offset
    cb_aux_offset := relocPair shiftBy hdrr.iaux_max hdrr.cb_aux_offset
    cb_ss_offset := relocPair shiftBy hdrr.iss_max hdrr.cb_ss_offset
    cb_ss_ext_offset := relocPair shiftBy hdrr.iss_ext_max hdrr.cb_ss_ext_offset
    cb_fd_offset := relocPair shiftBy hdrr.ifd_max hdrr.cb_fd_offset
    cb_rfd_offset := relocPair shiftBy hdrr.crfd hdrr.cb_rfd_offset
    cb_ext_offset := relocPair shiftBy hdrr.iext_max hdrr.cb_ext_offset }
  return serializeHdrr e hdrr

/-- Symbol table entry (`struct Symbol`), with the split `st_info` and
`st_other` fields and the resolved name. -/
structure Symbol where
  st_name : Nat
  st_value : Nat
  st_size : Nat
  st_shndx : Nat
  st_type : Nat
  st_bind : Nat
  st_visibility : Nat
  name : String
deriving DecidableEq, Repr

def SHN_UNDEF : Nat := 0
def STB_LOCAL : Nat := 0
def STT_OBJECT : Nat := 1

/-- The `_gp_disp` type fixup at the top of the dedup loop (lines
1157-1159). -/
def gpFix (s : Symbol) : Symbol :=
  if s.name = "_gp_disp" then { s with st_type := STT_OBJECT } else s

/-- The symbol deduplication loop of `fixup_objfile` (`postprocess.rs`
lines 1156-1195): `_gp_disp` symbols get type `STT_OBJECT`; an undefined
local or an anonymous non-local symbol aborts; the first symbol of each
nonempty name is kept in `newer_syms` and later duplicates either abort
(two distinct definitions) or alias the kept symbol via `old_syms`.
`nameToSym` is the `name_to_sym` hash map, modelled as an association
list. -/
def dedupLoop : List Symbol → List (String × Symbol) → List Symbol →
    List (Symbol × Symbol) → Except PErr (List Symbol × List (Symbol × Symbol))
  | [], _, newer, old => .ok (newer, old)
  | s :: rest, nameToSym, newer, old =>
    let s := gpFix s
    if s.st_bind = STB_LOCAL ∧ s.st_shndx = SHN_UNDEF then
      .error .undefinedLocalSymbol
    else if s.name = "" then
      if s.st_bind ≠ STB_LOCAL then .error .anonymousGlobalSymbol
      else dedupLoop rest nameToSym (newer ++ [s]) old
    else
      match nameToSym.lookup s.name with
      | none => dedupLoop rest (nameToSym ++ [(s.name, s)]) (newer ++ [s]) old
      | some existing =>
        if s.st_shndx ≠ SHN_UNDEF
            ∧ ¬ (existing.st_shndx = s.st_shndx ∧ existing.st_value = s.st_value) then
          .error .duplicateSymbol
        else
          dedupLoop rest nameToSym newer (old ++ [(s, existing)])

/-- The key of the final `sort_by_key` (line 1200): lexicographic on
`(st_bind != STB_LOCAL, name == "_gp_disp")`, encoded as a single `Nat`. -/
def symSortKey (s : Symbol) : Nat :=
  (if s.st_bind ≠ STB_LOCAL then 2 else 0) + (if s.name = "_gp_disp" then 1 else 0)

/-- Stable insertion into a key-sorted list (an earlier element stays
before later elements of equal key, as Rust's stable `sort_by_key`). -/
def insertByKey (x : Symbol) : List Symbol → List Symbol
  | [] => [x]
  | y :: ys => if symSortKey x ≤ symSortKey y then x :: y :: ys else y :: insertByKey x ys

/-- Stable sort by `symSortKey` (Rust `Vec::sort_by_key` is stable). -/
def stableSortByKey : List Symbol → List Symbol
  | [] => []
  | x :: xs => insertByKey x (stableSortByKey xs)

/-- The symbol merge tail of `fixup_objfile` (lines 1156-1225): dedup,
re-insert the null entry at index 0, stable sort with locals first and
`_gp_disp` last, and compute `sh_info` as the number of local symbols.
The preceding UNDEF-favoring `sort_by` (lines 1140-1146) uses an
inconsistent comparator, so its result is an unspecified permutation of
its input; theorems about this function therefore quantify over all input
orders. -/
def mergeSymbols (emptySym : Symbol) (syms : List Symbol) :
    Except PErr (List Symbol × Nat) := do
  let (newer, _old) ← dedupLoop syms [] [] []
  let newSyms := stableSortByKey (emptySym :: newer)
  let numLocals := (newSyms.filter (fun s => s.st_bind = STB_LOCAL)).length
  return (newSyms, numLocals)

/-- Relocation table entry (`struct Relocation`). -/
structure Reloc where
  r_offset : Nat
  sym_index : Nat
  rel_type : Nat
  r_addend : Option Nat
deriving DecidableEq, Repr

/-- The output section kinds iterated by `fixup_objfile`
(`OUTPUT_SECTIONS` from the crate root). -/
inductive OutSec where
  | data
  | text
  | rodata
  | bss
deriving DecidableEq, Repr

/-- A `(loc, size)` entry of `to_copy` (struct `ToCopyData`; the name and
description fields do not influence the copied positions). -/
structure ToCopyData where
  loc : Nat
  size : Nat
deriving DecidableEq, Repr

/-- The `modified_text_positions` set built by the `.text` arm of the
copy loop (`postprocess.rs` lines 841-849): for each copied range, every
`loc + 4*j` with `j < size/4` is inserted. -/
def modifiedTextPositionsOf (copies : List ToCopyData) : List Nat :=
  copies.flatMap (fun c => (List.range (c.size / 4)).map (fun j => c.loc + 4 * j))

/-- The relocation rewriting for one pre-existing relocation table of the
stub object (`postprocess.rs` lines 1237-1250): relocations whose
`r_offset` is in `modified_text_positions` (for a `.text` table) or in
`jtbl_rodata_positions` (for a `.rodata` table) are dropped, the rest have
their symbol index translated.  `newIndexOf` abstracts the composition
`new_index[&symbol_entries[rel.sym_index].name]`. -/
def filterRels (sectype : OutSec) (modified jtbl : List Nat)
    (newIndexOf : Nat → Nat) : List Reloc → List Reloc
  | [] => []
  | rel :: rest =>
    if (sectype = OutSec.text ∧ modified.contains rel.r_offset)
        ∨ (sectype = OutSec.rodata ∧ jtbl.contains rel.r_offset) then
      filterRels sectype modified jtbl newIndexOf rest
    else
      { rel with sym_index := newIndexOf rel.sym_index } ::
        filterRels sectype modified jtbl newIndexOf rest

/-- The `read_u32` closure of the static-symbol import in `fixup_objfile`
(`postprocess.rs` lines 1034-1036): `u32::from_be_bytes`, i.e. an
unconditionally big-endian read. -/
def fixupReadU32 (d : List Nat) (off : Nat) : Nat :=
  byteAt d off * 2 ^ 24 + byteAt d (off + 1) * 2 ^ 16 +
    byteAt d (off + 2) * 2 ^ 8 + byteAt d (off + 3)

/-- Byte-swap of a 32-bit value. -/
def byteSwap32 (v : Nat) : Nat :=
  v % 256 * 2 ^ 24 + v / 2 ^ 8 % 256 * 2 ^ 16 + v / 2 ^ 16 % 256 * 2 ^ 8 + v / 2 ^ 24 % 256

/-- The HDRR fields consulted by the static-symbol import (lines
1038-1041).  `fixup_objfile` has the object's declared endianness in
scope, but these reads go through the big-endian-only `read_u32` closure;
the parameter is unused exactly as in the code. -/
def staticImportHdrFields (_e : Endian) (mdebugData : List Nat) : Nat × Nat × Nat × Nat :=
  (fixupReadU32 mdebugData (18 * 4), fixupReadU32 mdebugData (19 * 4),
    fixupReadU32 mdebugData (9 * 4), fixupReadU32 mdebugData (15 * 4))

/-- The `(iss_base, isym_base, csym)` reads of file descriptor `i`
(lines 1044-1047), at `cb_fd_offset + 18*4*i`. -/
def staticImportFdRecord (_e : Endian) (objData : List Nat) (cbFdOffset i : Nat) :
    Nat × Nat × Nat :=
  let offset := cbFdOffset + 18 * 4 * i
  (fixupReadU32 objData (offset + 2 * 4), fixupReadU32 objData (offset + 4 * 4),
    fixupReadU32 objData (offset + 5 * 4))

/-- The `(iss, value, st_sc_index)` reads of local symbol `j` (lines
1051-1054), at `cb_sym_offset + 12*(isym_base + j)`. -/
def staticImportSymRecord (_e : Endian) (objData : List Nat) (cbSymOffset isymBase j : Nat) :
    Nat × Nat × Nat :=
  let offset2 := cbSymOffset + 12 * (isymBase + j)
  (fixupReadU32 objData offset2, fixupReadU32 objData (offset2 + 4),
    fixupReadU32 objData (offset2 + 8))

/-! ### Claims -/

set_option maxRecDepth 1000000

/-- A concrete `.mdebug` payload: a valid big-endian HDRR (magic
`0x7009`, `cb_line = 5`, `cb_line_offset = 0x10`, everything else zero)
followed by four payload bytes. -/
def c1Data : List Nat :=
  [0x70, 0x09] ++ List.replicate 6 0 ++ [0, 0, 0, 5] ++ [0, 0, 0, 0x10] ++
    List.replicate 80 0 ++ [1, 2, 3, 4]

/-- C1: when writing moves a `.mdebug` section (here from file offset 100
to 200), `relocate_mdebug` does adjust each `byte_offset` whose count is
non-zero by the offset difference (here `cb_line_offset` moves from 0x10
to 0x10 + 100), but it then replaces the whole section payload by the 96
serialized HDRR bytes: the payload bytes after the HDRR are dropped, not
left unchanged.  This evaluates the embedded `relocate_mdebug` at the
failing input. -/
theorem c1_mdebug_payload_truncated :
    c1Data.length = 100 ∧ c1Data.drop 96 = [1, 2, 3, 4] ∧
    (relocateMdebug 200 100 .big c1Data).map (fun d => readU32 .big d 12) = .ok (0x10 + 100) ∧
    (relocateMdebug 200 100 .big c1Data).map (fun d => d.length) = .ok 96 ∧
    (relocateMdebug 200 100 .big c1Data).map (fun d => d.drop 96) = .ok [] := by
  decide

/-- The source file and option set of the empty-`GLOBAL_ASM` scenario. -/
def c3Env : Env := [("a.c", ["GLOBAL_ASM(", ")"])]

/-- Plain C at -O2: `(min_instr_count, skip_instr_count) = (2, 1)`. -/
def c3Args : Args := ⟨.O2, false, false, false, false, false, false⟩

/-- C3: preprocessing a source whose only content is an empty
`GLOBAL_ASM(`/`)` block succeeds and produces exactly one `Function`
record, all four of whose section sizes are 0. -/
theorem c3_empty_global_asm :
    (parseSourceFuel 1 c3Env c3Args "a.c" false).map
      (fun r => r.functions.map
        (fun f => (f.dataText.2, f.dataData.2, f.dataRodata.2, f.dataBss.2))) =
      .ok [(0, 0, 0, 0)] := by
  decide

/-- C4: `.double` evaluated at the failing input.  In a non-late-rodata
section (here `.data`) the directive aligns but adds nothing to the
accumulated size, because the `add_sized` call sits inside the
`cur_section == Section::LateRodata` branch; the claimed unconditional
`8 × comma_count` addition happens only in `.late_rodata`, where the
alignment mod 8 is also inferred as claimed. -/
theorem c4_double_outside_late_rodata_adds_nothing :
    ((GAB.new "t").processLines [".data", ".double 1.0"]).map
      (fun b => b.fn_section_sizes.data) = .ok 0 ∧
    ((GAB.new "t").processLines [".data", ".double 1.0,2.0"]).map
      (fun b => b.fn_section_sizes.data) = .ok 0 ∧
    ((GAB.new "t").processLines [".late_rodata", ".double 1.0"]).map
      (fun b => (b.fn_section_sizes.lateRodata, b.late_rodata_alignment,
        b.late_rodata_alignment_from_context)) = .ok (8, 8, true) ∧
    ((GAB.new "t").processLines [".late_rodata", ".double 1.0,2.0"]).map
      (fun b => b.fn_section_sizes.lateRodata) = .ok 16 := by
  decide

theorem byteAt_lt_256 (d : List Nat) (i : Nat) (h : ∀ x ∈ d, x < 256) :
    byteAt d i < 256 := by
  unfold byteAt
  rw [List.getD_eq_getElem?_getD]
  cases hx : d[i]? with
  | none => simp
  | some x =>
    have := List.getElem?_mem hx
    simpa using h x this

/-- C10: every 32-bit read of the `.mdebug` static-symbol import — the
HDRR fields, the file-descriptor records and the local-symbol records —
goes through the big-endian-only `read_u32` closure, so the parsed values
are independent of the object's declared endianness, equal the big-endian
interpretation of the bytes, and are the byte-swap of the little-endian
(native) interpretation. -/
theorem c10_mdebug_import_reads_big_endian (e : Endian) (d : List Nat)
    (off cbFd cbSym isymBase i j : Nat) (h : ∀ x ∈ d, x < 256) :
    staticImportHdrFields e d = staticImportHdrFields Endian.big d ∧
    staticImportFdRecord e d cbFd i = staticImportFdRecord Endian.big d cbFd i ∧
    staticImportSymRecord e d cbSym isymBase j =
      staticImportSymRecord Endian.big d cbSym isymBase j ∧
    fixupReadU32 d off = readU32 Endian.big d off ∧
    fixupReadU32 d off = byteSwap32 (readU32 Endian.little d off) := by
  refine ⟨rfl, rfl, rfl, rfl, ?_⟩
  have h0 := byteAt_lt_256 d off h
  have h1 := byteAt_lt_256 d (off + 1) h
  have h2 := byteAt_lt_256 d (off + 2) h
  have h3 := byteAt_lt_256 d (off + 3) h
  simp only [fixupReadU32, byteSwap32, readU32]
  omega

/-- Witness for C10 at a concrete little-endian buffer. -/
theorem c10_mdebug_import_reads_big_endian_witness :
    (∀ x ∈ [1, 2, 3, 4], x < 256) ∧
    (staticImportHdrFields Endian.little [1, 2, 3, 4] =
        staticImportHdrFields Endian.big [1, 2, 3, 4] ∧
      staticImportFdRecord Endian.little [1, 2, 3, 4] 0 0 =
        staticImportFdRecord Endian.big [1, 2, 3, 4] 0 0 ∧
      staticImportSymRecord Endian.little [1, 2, 3, 4] 0 0 0 =
        staticImportSymRecord Endian.big [1, 2, 3, 4] 0 0 0 ∧
      fixupReadU32 [1, 2, 3, 4] 0 = readU32 Endian.big [1, 2, 3, 4] 0 ∧
      fixupReadU32 [1, 2, 3, 4] 0 = byteSwap32 (readU32 Endian.little [1, 2, 3, 4] 0)) :=
  ⟨by decide,
    c10_mdebug_import_reads_big_endian Endian.little [1, 2, 3, 4] 0 0 0 0 0 0 (by decide)⟩

theorem filterRels_no_dropped (sectype : OutSec) (modified jtbl : List Nat) (f : Nat → Nat) :
    ∀ (rels : List Reloc) (r : Reloc), r ∈ filterRels sectype modified jtbl f rels →
      ¬ ((sectype = OutSec.text ∧ modified.contains r.r_offset)
          ∨ (sectype = OutSec.rodata ∧ jtbl.contains r.r_offset)) := by
  intro rels
  induction rels with
  | nil => simp [filterRels]
  | cons rel rest ih =>
    intro r hr
    simp only [filterRels] at hr
    split at hr
    · exact ih r hr
    · rename_i hcond
      rcases List.mem_cons.mp hr with heq | hmem
      · subst heq
        simpa using hcond
      · exact ih r hmem

/-- C9: (a) for every `(loc, size)` byte range copied from asm `.text`
into stub `.text` (with the 4-alignment the code asserts), every 4-aligned
offset inside the range is recorded in `modified_text_positions`; (b) no
relocation surviving the rewrite of a stub `.text` relocation table has
its offset in `modified_text_positions`, and none surviving a `.rodata`
table has its offset in `jtbl_rodata_positions`. -/
theorem c9_copied_positions_tracked_and_rels_dropped
    (copies : List ToCopyData) (jtbl : List Nat) (f : Nat → Nat) (rels : List Reloc)
    (hal : ∀ c ∈ copies, c.loc % 4 = 0 ∧ c.size % 4 = 0) :
    (∀ c ∈ copies, ∀ off, c.loc ≤ off → off < c.loc + c.size → off % 4 = 0 →
      off ∈ modifiedTextPositionsOf copies) ∧
    (∀ r ∈ filterRels OutSec.text (modifiedTextPositionsOf copies) jtbl f rels,
      ¬ (modifiedTextPositionsOf copies).contains r.r_offset) ∧
    (∀ r ∈ filterRels OutSec.rodata (modifiedTextPositionsOf copies) jtbl f rels,
      ¬ jtbl.contains r.r_offset) := by
  refine ⟨?_, ?_, ?_⟩
  · intro c hc off hlo hhi hmod
    obtain ⟨hl4, hs4⟩ := hal c hc
    simp only [modifiedTextPositionsOf, List.mem_flatMap]
    refine ⟨c, hc, ?_⟩
    simp only [List.mem_map, List.mem_range]
    exact ⟨(off - c.loc) / 4, by omega, by omega⟩
  · intro r hr
    have := filterRels_no_dropped OutSec.text (modifiedTextPositionsOf copies) jtbl f rels r hr
    simpa using this
  · intro r hr
    have := filterRels_no_dropped OutSec.rodata (modifiedTextPositionsOf copies) jtbl f rels r hr
    simpa using this

/-- Witness for C9 at a concrete copy list and relocation table. -/
theorem c9_copied_positions_tracked_and_rels_dropped_witness :
    (∀ c ∈ [ToCopyData.mk 8 8], c.loc % 4 = 0 ∧ c.size % 4 = 0) ∧
    ((∀ c ∈ [ToCopyData.mk 8 8], ∀ off, c.loc ≤ off → off < c.loc + c.size → off % 4 = 0 →
        off ∈ modifiedTextPositionsOf [ToCopyData.mk 8 8]) ∧
      (∀ r ∈ filterRels OutSec.text (modifiedTextPositionsOf [ToCopyData.mk 8 8]) [4] id
          [Reloc.mk 8 1 4 none, Reloc.mk 0 2 5 none],
        ¬ (modifiedTextPositionsOf [ToCopyData.mk 8 8]).contains r.r_offset) ∧
      (∀ r ∈ filterRels OutSec.rodata (modifiedTextPositionsOf [ToCopyData.mk 8 8]) [4] id
          [Reloc.mk 8 1 4 none, Reloc.mk 0 2 5 none],
        ¬ ([4] : List Nat).contains r.r_offset)) :=
  ⟨by decide,
    c9_copied_positions_tracked_and_rels_dropped [ToCopyData.mk 8 8] [4] id
      [Reloc.mk 8 1 4 none, Reloc.mk 0 2 5 none] (by decide)⟩

theorem gpFix_name (s : Symbol) : (gpFix s).name = s.name := by
  unfold gpFix; split <;> rfl

theorem gpFix_bind (s : Symbol) : (gpFix s).st_bind = s.st_bind := by
  unfold gpFix; split <;> rfl

theorem gpFix_shndx (s : Symbol) : (gpFix s).st_shndx = s.st_shndx := by
  unfold gpFix; split <;> rfl

/-- A symbol the dedup loop rejects: an undefined local or an anonymous
non-local. -/
def badSym (s : Symbol) : Prop :=
  (s.st_bind = STB_LOCAL ∧ s.st_shndx = SHN_UNDEF) ∨ (s.name = "" ∧ s.st_bind ≠ STB_LOCAL)

theorem dedupLoop_ok_no_bad :
    ∀ (syms : List Symbol) (m : List (String × Symbol)) (newer : List Symbol)
      (old : List (Symbol × Symbol)) (out : List Symbol × List (Symbol × Symbol)),
      dedupLoop syms m newer old = .ok out → ∀ s ∈ syms, ¬ badSym s := by
  intro syms
  induction syms with
  | nil => intro m newer old out h s hs; simp at hs
  | cons s0 rest ih =>
    intro m newer old out h s hs
    simp only [dedupLoop] at h
    split at h
    · exact absurd h (by simp)
    · rename_i hc1
      rw [gpFix_bind, gpFix_shndx] at hc1
      split at h
      · rename_i hc2
        rw [gpFix_name] at hc2
        split at h
        · exact absurd h (by simp)
        · rename_i hc3
          rw [gpFix_bind] at hc3
          rcases List.mem_cons.mp hs with rfl | hmem
          · rintro (hbad | ⟨hn, hb⟩)
            · exact hc1 hbad
            · exact hb (by simpa using hc3)
          · exact ih _ _ _ _ h s hmem
      · rename_i hc2
        rw [gpFix_name] at hc2
        have hhead : ¬ badSym s0 := by
          rintro (hbad | ⟨hn, hb⟩)
          · exact hc1 hbad
          · exact hc2 hn
        split at h
        · rcases List.mem_cons.mp hs with rfl | hmem
          · exact hhead
          · exact ih _ _ _ _ h s hmem
        · split at h
          · exact absurd h (by simp)
          · rcases List.mem_cons.mp hs with rfl | hmem
            · exact hhead
            · exact ih _ _ _ _ h s hmem

theorem dedupLoop_mem :
    ∀ (syms : List Symbol) (m : List (String × Symbol)) (newer : List Symbol)
      (old : List (Symbol × Symbol)) (out : List Symbol × List (Symbol × Symbol)),
      dedupLoop syms m newer old = .ok out →
      ∀ t ∈ out.1, t ∈ newer ∨ ∃ s ∈ syms, t = gpFix s := by
  intro syms
  induction syms with
  | nil =>
    intro m newer old out h t ht
    simp only [dedupLoop] at h
    cases h
    exact Or.inl ht
  | cons s0 rest ih =>
    intro m newer old out h t ht
    simp only [dedupLoop] at h
    split at h
    · exact absurd h (by simp)
    · split at h
      · split at h
        · exact absurd h (by simp)
        · rcases ih _ _ _ _ h t ht with hin | ⟨s, hs, rfl⟩
          · rcases List.mem_append.mp hin with hin | hin
            · exact Or.inl hin
            · exact Or.inr ⟨s0, List.mem_cons_self _ _, by simpa using hin⟩
          · exact Or.inr ⟨s, List.mem_cons_of_mem _ hs, rfl⟩
      · split at h
        · rcases ih _ _ _ _ h t ht with hin | ⟨s, hs, rfl⟩
          · rcases List.mem_append.mp hin with hin | hin
            · exact Or.inl hin
            · exact Or.inr ⟨s0, List.mem_cons_self _ _, by simpa using hin⟩
          · exact Or.inr ⟨s, List.mem_cons_of_mem _ hs, rfl⟩
        · split at h
          · exact absurd h (by simp)
          · rcases ih _ _ _ _ h t ht with hin | ⟨s, hs, rfl⟩
            · exact Or.inl hin
            · exact Or.inr ⟨s, List.mem_cons_of_mem _ hs, rfl⟩

theorem insertByKey_perm (x : Symbol) (l : List Symbol) :
    List.Perm (insertByKey x l) (x :: l) := by
  induction l with
  | nil => simp [insertByKey]
  | cons y ys ih =>
    simp only [insertByKey]
    split
    · exact List.Perm.refl _
    · exact List.Perm.trans (List.Perm.cons y ih) (List.Perm.swap x y ys)

theorem stableSortByKey_perm (l : List Symbol) :
    List.Perm (stableSortByKey l) l := by
  induction l with
  | nil => simp [stableSortByKey]
  | cons x xs ih =>
    exact List.Perm.trans (insertByKey_perm x (stableSortByKey xs)) (List.Perm.cons x ih)

theorem insertByKey_sorted (x : Symbol) (l : List Symbol)
    (h : l.Pairwise (fun a b => symSortKey a ≤ symSortKey b)) :
    (insertByKey x l).Pairwise (fun a b => symSortKey a ≤ symSortKey b) := by
  induction l with
  | nil => simp [insertByKey]
  | cons y ys ih =>
    simp only [insertByKey]
    rcases List.pairwise_cons.mp h with ⟨hy, hys⟩
    split
    · rename_i hxy
      refine List.pairwise_cons.mpr ⟨?_, h⟩
      intro z hz
      rcases List.mem_cons.mp hz with rfl | hz
      · exact hxy
      · exact Nat.le_trans hxy (hy z hz)
    · rename_i hxy
      refine List.pairwise_cons.mpr ⟨?_, ih hys⟩
      intro z hz
      have := (insertByKey_perm x ys).mem_iff.mp hz
      rcases List.mem_cons.mp this with rfl | hz2
      · omega
      · exact hy z hz2

theorem stableSortByKey_sorted (l : List Symbol) :
    (stableSortByKey l).Pairwise (fun a b => symSortKey a ≤ symSortKey b) := by
  induction l with
  | nil => simp [stableSortByKey]
  | cons x xs ih => exact insertByKey_sorted x (stableSortByKey xs) ih

theorem stableSortByKey_head (x : Symbol) (l : List Symbol) (hx : symSortKey x = 0) :
    (stableSortByKey (x :: l)).head? = some x := by
  show (insertByKey x (stableSortByKey l)).head? = some x
  cases stableSortByKey l with
  | nil => rfl
  | cons y ys =>
    simp only [insertByKey]
    rw [if_pos (by omega)]
    rfl

theorem sorted_le_last (l : List Symbol)
    (h : l.Pairwise (fun a b => symSortKey a ≤ symSortKey b)) :
    ∀ s ∈ l, ∃ t, l.getLast? = some t ∧ symSortKey s ≤ symSortKey t := by
  induction l with
  | nil => simp
  | cons x xs ih =>
    intro s hs
    rcases List.pairwise_cons.mp h with ⟨hx, hxs⟩
    cases xs with
    | nil =>
      simp at hs
      exact ⟨x, rfl, le_of_eq (by rw [hs])⟩
    | cons y ys =>
      rcases List.mem_cons.mp hs with rfl | hmem
      · obtain ⟨t, ht, hle⟩ := ih hxs y (List.mem_cons_self _ _)
        refine ⟨t, ?_, ?_⟩
        · rw [List.getLast?_cons_cons]; exact ht
        · exact Nat.le_trans (hx y (List.mem_cons_self _ _)) hle
      · obtain ⟨t, ht, hle⟩ := ih hxs s hmem
        refine ⟨t, ?_, hle⟩
        rw [List.getLast?_cons_cons]
        exact ht

theorem symSortKey_ge_two {s : Symbol} (h : ¬ s.st_bind = STB_LOCAL) :
    2 ≤ symSortKey s := by
  simp only [symSortKey]
  rw [if_pos h]
  omega

theorem symSortKey_le_one {s : Symbol} (h : s.st_bind = STB_LOCAL) :
    symSortKey s ≤ 1 := by
  simp only [symSortKey]
  rw [if_neg (fun hcon => hcon h)]
  split <;> omega

/-- C8: after the merge, a successful `mergeSymbols` run yields the null
entry at index 0, every local symbol before every non-local one,
`sh_info` equal to the number of local symbols, and (when some `_gp_disp`
symbol is present, necessarily non-local by hypothesis `hgp`) `_gp_disp`
as the last entry; and the merge fails whenever the input contains a local
symbol with `st_shndx == SHN_UNDEF` or a non-local symbol with an empty
name. -/
theorem c8_symbol_table_order (emptySym : Symbol) (syms : List Symbol)
    (hemp : emptySym.st_bind = STB_LOCAL ∧ emptySym.name ≠ "_gp_disp")
    (hgp : ∀ s ∈ syms, s.name = "_gp_disp" → s.st_bind ≠ STB_LOCAL) :
    (∀ out, mergeSymbols emptySym syms = .ok out →
      out.1.head? = some emptySym
      ∧ out.1.Pairwise (fun a b => b.st_bind = STB_LOCAL → a.st_bind = STB_LOCAL)
      ∧ out.2 = (out.1.filter (fun s => s.st_bind = STB_LOCAL)).length
      ∧ ((∃ s ∈ out.1, s.name = "_gp_disp") →
          (out.1.getLast?).map Symbol.name = some "_gp_disp"))
    ∧ ((∃ s ∈ syms, badSym s) → ∃ e, mergeSymbols emptySym syms = .error e) := by
  constructor
  · intro out hout
    simp only [mergeSymbols] at hout
    cases hdd : dedupLoop syms [] [] [] with
    | error e => rw [hdd] at hout; exact absurd hout (by simp)
    | ok p =>
      rw [hdd] at hout
      simp only [bind, Except.bind, pure, Except.pure] at hout
      obtain ⟨newer, old⟩ := p
      cases hout
      have hkey0 : symSortKey emptySym = 0 := by
        simp [symSortKey, hemp.1, hemp.2]
      refine ⟨stableSortByKey_head emptySym newer hkey0, ?_, rfl, ?_⟩
      · refine (stableSortByKey_sorted (emptySym :: newer)).imp ?_
        intro a b hle
        intro hb
        by_contra ha
        have h1 := symSortKey_ge_two ha
        have h2 := symSortKey_le_one hb
        omega
      · rintro ⟨s, hs, hsname⟩
        have hkey3 : symSortKey s = 3 := by
          have hsmem : s ∈ emptySym :: newer :=
            (stableSortByKey_perm (emptySym :: newer)).subset hs
          rcases List.mem_cons.mp hsmem with rfl | hsnewer
          · exact absurd hsname hemp.2
          · rcases dedupLoop_mem syms [] [] [] (newer, old) hdd s hsnewer with hfalse | ⟨u, hu, rfl⟩
            · simp at hfalse
            · rw [gpFix_name] at hsname
              have hb := hgp u hu hsname
              rw [← gpFix_bind] at hb
              simp only [symSortKey]
              rw [if_pos hb, if_pos (by rw [gpFix_name]; exact hsname)]
        obtain ⟨t, ht, hle⟩ := sorted_le_last _ (stableSortByKey_sorted (emptySym :: newer)) s hs
        rw [ht]
        have htkey : symSortKey t = 3 := by
          have : symSortKey t ≤ 3 := by
            simp only [symSortKey]
            split <;> split <;> omega
          omega
        simp only [symSortKey] at htkey
        simp only [Option.map_some']
        by_cases hname : t.name = "_gp_disp"
        · rw [hname]
        · rw [if_neg hname] at htkey
          split at htkey <;> omega
  · rintro ⟨s, hs, hbad⟩
    simp only [mergeSymbols]
    cases hdd : dedupLoop syms [] [] [] with
    | error e => exact ⟨e, rfl⟩
    | ok p => exact absurd hbad (dedupLoop_ok_no_bad syms [] [] [] p hdd s hs)

/-- Witness for C8: a three-symbol table (a local, a global and a
non-local `_gp_disp`), with the reserved null entry. -/
def c8Empty : Symbol := ⟨0, 0, 0, 0, 0, 0, 0, ""⟩

def c8Syms : List Symbol :=
  [⟨1, 8, 0, 2, 1, 1, 0, "g"⟩, ⟨2, 4, 0, 1, 1, 0, 0, "loc"⟩, ⟨3, 0, 0, 0, 1, 1, 0, "_gp_disp"⟩]

theorem c8_symbol_table_order_witness :
    ((c8Empty.st_bind = STB_LOCAL ∧ c8Empty.name ≠ "_gp_disp")
      ∧ (∀ s ∈ c8Syms, s.name = "_gp_disp" → s.st_bind ≠ STB_LOCAL)) ∧
    ((∀ out, mergeSymbols c8Empty c8Syms = .ok out →
      out.1.head? = some c8Empty
      ∧ out.1.Pairwise (fun a b => b.st_bind = STB_LOCAL → a.st_bind = STB_LOCAL)
      ∧ out.2 = (out.1.filter (fun s => s.st_bind = STB_LOCAL)).length
      ∧ ((∃ s ∈ out.1, s.name = "_gp_disp") →
          (out.1.getLast?).map Symbol.name = some "_gp_disp"))
    ∧ ((∃ s ∈ c8Syms, badSym s) → ∃ e, mergeSymbols c8Empty c8Syms = .error e)) :=
  ⟨⟨⟨by decide, by decide⟩, by decide⟩,
    c8_symbol_table_order c8Empty c8Syms ⟨by decide, by decide⟩ (by decide)⟩

/-- The cost the claim assigns to a jump-table expression: "9
instructions, or 11 with mips1".  This follows the claim's words, for
comparison with the `jtblParams` table translated from the source. -/
def c7ClaimJtblCost (mips1 : Bool) : Nat := if mips1 then 11 else 9

/-- Pascal at -O2 equivalents: `use_jtbl_for_rodata` on, mips1 off. -/
def c7G : GlobalState := GlobalState.new 0 0 true 0 false true

/-- A block with 12 bytes of `.late_rodata` and 12 text instructions. -/
def c7BlockE : Except PErr GAB :=
  (GAB.new "t").processLines [".late_rodata", ".word 1,2,3", ".text", "glabel f", ".space 48"]

/-- C7 counterexample: with Pascal codegen (mips1 off) the late-rodata
generator emits one float (3 statements) and then a jump table covering
the remaining 2 words, appending 8 statements — `jtbl_size` is 8 here,
not the 9 the claim asserts for non-mips1 — for an output of 11
statements where the claim's costs give 12.  The branch also fires with
only 12 - 3 = 9 instructions remaining, below the claim's flat threshold
of 10 (the code requires `jtbl_size + 1 = 9`). -/
theorem c7_jtbl_cost_counterexample :
    c7BlockE.map (fun b => ((lateGen b c7G).out.length, (lateGen b c7G).jtblSize)) =
      .ok (11, 8) ∧
    c7ClaimJtblCost false = 9 ∧ (11 : Nat) ≠ 3 + c7ClaimJtblCost false := by
  decide

theorem jtblParams_fst_pos (p m : Bool) : 1 ≤ (jtblParams p m).1 := by
  cases p <;> cases m <;> decide

/-- C7 (amended): whenever a run of the late-rodata generation loop emits
a jump table (observable as `jtbl_rodata_size > 0`), then at the emitting
index `k`: `use_jtbl_for_rodata` was enabled, at least one late-rodata
word had already been emitted (`1 ≤ k`), at least
`jtbl_min_rodata_size` = 5 (2 in Pascal) words remained, at least
`jtbl_size + 1` instructions remained (with `jtbl_size` from the
`(pascal, mips1)` table: 9, 11 with mips1, 8 for Pascal, 9 for Pascal
with mips1), the pending-double flag was necessarily clear (the emitting
branch requires it), the table covers all `size - k` remaining words, and
the expression costs exactly `jtbl_size` output statements. -/
theorem c7_jtbl_emission_conditions (b : GAB) (numInstr size : Nat) :
    ∀ (fuel i : Nat) (skipNext needsDouble extraNop : Bool)
      (out : List String) (dummies : List (List Nat)) (g : GlobalState)
      (res : LateGenResult),
      lateGenLoop b numInstr size fuel i skipNext needsDouble extraNop out dummies g = res →
      0 < res.jtblSize →
      g.use_jtbl_for_rodata = true ∧
      ∃ k preOut,
        1 ≤ k ∧
        (jtblParams g.pascal g.mips1).2 ≤ size - k ∧
        (jtblParams g.pascal g.mips1).1 + 1 ≤ wrappingSub64 numInstr preOut.length ∧
        res.jtblSize = (size - k) * 4 ∧
        res.out = preOut ++
          [(if g.pascal then jtblLineP (size - k) else jtblLineC (size - k))] ++
          List.replicate ((jtblParams g.pascal g.mips1).1 - 1) "" ∧
        res.out.length = preOut.length + (jtblParams g.pascal g.mips1).1 := by
  intro fuel
  induction fuel with
  | zero =>
    intro i sk nd en out dummies g res heq hpos
    simp only [lateGenLoop] at heq
    rw [← heq] at hpos
    simp at hpos
  | succ fuel ih =>
    intro i sk nd en out dummies g res heq hpos
    simp only [lateGenLoop, GlobalState.nextLateRodataHex] at heq
    split at heq
    · exact ih _ _ _ _ _ _ _ _ heq hpos
    · split at heq
      · rename_i hcond
        rw [← heq] at hpos ⊢
        refine ⟨by simpa using hcond.2.1, i, out, by simpa using hcond.2.2.1,
          by simpa using hcond.2.2.2.1, by simpa using hcond.2.2.2.2, rfl, rfl, ?_⟩
        have := jtblParams_fst_pos g.pascal g.mips1
        simp [List.length_replicate]
        omega
      · split at heq
        · have := ih _ _ _ _ _ _ _ _ heq hpos
          simpa using this
        · have := ih _ _ _ _ _ _ _ _ heq hpos
          simpa using this

/-- The concrete block of `c7BlockE` (processing succeeds on it). -/
def c7Block : GAB :=
  match c7BlockE with
  | .ok b => b
  | .error _ => GAB.new ""

/-- Witness for C7's amended theorem, at the concrete Pascal run of the
counterexample (jump table of 8 bytes emitted at index 1). -/
theorem c7_jtbl_emission_conditions_witness :
    (lateGenLoop c7Block 12 3 3 0 false false false [] [] c7G =
        lateGenLoop c7Block 12 3 3 0 false false false [] [] c7G ∧
      0 < (lateGenLoop c7Block 12 3 3 0 false false false [] [] c7G).jtblSize) ∧
    (c7G.use_jtbl_for_rodata = true ∧
      ∃ k preOut,
        1 ≤ k ∧
        (jtblParams c7G.pascal c7G.mips1).2 ≤ 3 - k ∧
        (jtblParams c7G.pascal c7G.mips1).1 + 1 ≤ wrappingSub64 12 preOut.length ∧
        (lateGenLoop c7Block 12 3 3 0 false false false [] [] c7G).jtblSize = (3 - k) * 4 ∧
        (lateGenLoop c7Block 12 3 3 0 false false false [] [] c7G).out = preOut ++
          [(if c7G.pascal then jtblLineP (3 - k) else jtblLineC (3 - k))] ++
          List.replicate ((jtblParams c7G.pascal c7G.mips1).1 - 1) "" ∧
        (lateGenLoop c7Block 12 3 3 0 false false false [] [] c7G).out.length =
          preOut.length + (jtblParams c7G.pascal c7G.mips1).1) :=
  ⟨⟨rfl, by decide⟩,
    c7_jtbl_emission_conditions c7Block 12 3 3 0 false false false [] [] c7G _ rfl (by decide)⟩

/-- The number of `epilogue; prologue;` splits the claim predicts for a
block of `n` instructions with no late rodata: one after every 100
emitted statements, provided at least `min` instructions remain.  This
follows the claim's words, for comparison with the emission loop
translated from the source. -/
def c6ClaimSplits (n min : Nat) : Nat :=
  ((List.range n).filter (fun k => (k + 1) % 100 = 0 ∧ min ≤ n - (k + 1))).length

/-- `min_instr_count = skip_instr_count = 0`, plain C codegen. -/
def c6G : GlobalState := GlobalState.new 0 0 false 0 false false

/-- A block with 101 text instructions. -/
def c6BlockE : Except PErr GAB :=
  (GAB.new "t").processLines ["glabel f", ".space 404"]

/-- C6 counterexample: `finish` on a 101-instruction block (no late
rodata, `min_instr_count = 0`) performs exactly one `make_name` call (the
initial `func` prologue) — its name counter ends at 1, so no
`epilogue; prologue;` pair was injected — whereas the claim's
split-every-100 rule predicts one split (after statement 100, with 1 ≥ 0
instructions remaining).  The code splits only when the per-function
count exceeds 100, i.e. at statement 102. -/
theorem c6_split_counterexample :
    (c6BlockE.bind (fun b => b.finish c6G)).map (fun r => r.2.2.namectr) = .ok 1 ∧
    c6ClaimSplits 101 0 = 1 ∧ (1 : Nat) ≠ 1 + c6ClaimSplits 101 0 := by
  decide

/-- The loop invariant for the no-late-rodata, no-skip emission run:
after `m` statements, the name counter has advanced by one per completed
run of 101 statements. -/
def c6Inv (g0 : GlobalState) (m : Nat) (st : EmitState) : Prop :=
  st.totEmitted = m ∧ st.totSkipped = 0 ∧
  st.fnEmitted = m - 101 * ((m - 1) / 101) ∧ st.fnSkipped = 0 ∧
  st.skipping = decide (m = 0) ∧ st.stack = [] ∧
  st.g.min_instr_count = 0 ∧ st.g.skip_instr_count = 0 ∧
  st.g.namectr = g0.namectr + (m - 1) / 101

theorem wrappingSub64_eq {a b : Nat} (hba : b ≤ a) (ha : a < 2 ^ 64) :
    wrappingSub64 a b = a - b := by
  unfold wrappingSub64
  omega

theorem c6_step (n line : Nat) (g0 : GlobalState) (m : Nat) (st : EmitState)
    (hmn : m < n) (hn : n < 2 ^ 64) (hinv : c6Inv g0 m st) :
    c6Inv g0 (m + 1) (emitOne n line st) := by
  obtain ⟨h1, h2, h3, h4, h5, h6, h7, h8, h9⟩ := hinv
  have hws : wrappingSub64 n st.totEmitted = n - m := by
    rw [h1, wrappingSub64_eq (by omega) hn]
  have hfle : m - 101 * ((m - 1) / 101) ≤ 101 := by omega
  unfold emitOne
  simp only [MAX_FN_SIZE]
  rw [hws, h3, h6, h7]
  by_cases hsplit : 100 < m - 101 * ((m - 1) / 101)
  · have hnm : 0 < n - m := by omega
    simp only [GlobalState.makeName, c6Inv]
    simp [hsplit, hnm, h8, h4, h6, h1, h2, h9]
    cases hp : st.g.pascal <;> simp [hp] <;> omega
  · simp only [c6Inv]
    simp [hsplit, h1, h2, h3, h4, h5, h6, h8, h9]
    cases hp : st.g.pascal <;> simp [hp] <;> omega

theorem c6_run (n line : Nat) (g0 : GlobalState) (hn : n < 2 ^ 64) :
    ∀ (k m : Nat) (st : EmitState), m + k ≤ n → c6Inv g0 m st →
      c6Inv g0 (m + k) (emitCount n line k st) := by
  intro k
  induction k with
  | zero => intro m st _ hinv; simpa using hinv
  | succ k ih =>
    intro m st hle hinv
    have hstep := c6_step n line g0 m st (by omega) hn hinv
    have := ih (m + 1) (emitOne n line st) (by omega) hstep
    simpa [emitCount, Nat.add_assoc, Nat.add_comm 1 k] using this

/-- C6 (amended): the emission loop injects an `epilogue; prologue;` pair
after each run of 101 (not 100) emitted statements — the split fires when
the per-function statement count exceeds `MAX_FN_SIZE = 100` and strictly
more than `min_instr_count` instructions remain.  With no late rodata and
`min_instr_count = skip_instr_count = 0`, an `n`-instruction block gets
exactly `(n - 1) / 101` splits: each split performs one `make_name`, so
the name counter of the final state advances by exactly `(n - 1) / 101`. -/
theorem c6_split_every_101 (n line : Nat) (src0 : List String) (g : GlobalState)
    (hn : n < 2 ^ 64) (hmin : g.min_instr_count = 0) (hskip : g.skip_instr_count = 0) :
    (emitAll n [(line, n)] ⟨src0, g, 0, 0, 0, 0, true, []⟩).g.namectr =
      g.namectr + (n - 1) / 101 ∧
    (emitAll n [(line, n)] ⟨src0, g, 0, 0, 0, 0, true, []⟩).totEmitted = n ∧
    (emitAll n [(line, n)] ⟨src0, g, 0, 0, 0, 0, true, []⟩).totSkipped = 0 := by
  have h0 : c6Inv g 0 ⟨src0, g, 0, 0, 0, 0, true, []⟩ := by
    refine ⟨rfl, rfl, by simp, rfl, by simp, rfl, hmin, hskip, by simp⟩
  have := c6_run n line g hn n 0 ⟨src0, g, 0, 0, 0, 0, true, []⟩ (by omega) h0
  simp only [Nat.zero_add] at this
  simp only [emitAll, List.foldl_cons, List.foldl_nil]
  obtain ⟨h1, h2, _, _, _, _, _, _, h9⟩ := this
  exact ⟨h9, by simpa using h1, h2⟩

/-- Witness for C6's amended theorem: a 102-instruction run splits once. -/
theorem c6_split_every_101_witness :
    ((102 : Nat) < 2 ^ 64 ∧ c6G.min_instr_count = 0 ∧ c6G.skip_instr_count = 0) ∧
    ((emitAll 102 [(1, 102)] ⟨["", "", ""], c6G, 0, 0, 0, 0, true, []⟩).g.namectr =
        c6G.namectr + (102 - 1) / 101 ∧
      (emitAll 102 [(1, 102)] ⟨["", "", ""], c6G, 0, 0, 0, 0, true, []⟩).totEmitted = 102 ∧
      (emitAll 102 [(1, 102)] ⟨["", "", ""], c6G, 0, 0, 0, 0, true, []⟩).totSkipped = 0) :=
  ⟨⟨by decide, by decide, by decide⟩,
    c6_split_every_101 102 1 ["", "", ""] c6G (by decide) (by decide) (by decide)⟩


/-- The late-rodata generation loop threads `g` only through
`nextLateRodataHex`, so `min_instr_count` is preserved. -/
theorem lateGenLoop_g_min (b : GAB) (numInstr size : Nat) :
    ∀ (fuel i : Nat) (sk nd en : Bool) (out : List String)
      (dummies : List (List Nat)) (g : GlobalState),
      (lateGenLoop b numInstr size fuel i sk nd en out dummies g).g.min_instr_count
        = g.min_instr_count := by
  intro fuel
  induction fuel with
  | zero => intro i sk nd en out dummies g; rfl
  | succ fuel ih =>
    intro i sk nd en out dummies g
    simp only [lateGenLoop, GlobalState.nextLateRodataHex]
    split
    · exact ih _ _ _ _ _ _ _
    · split
      · rfl
      · split
        · simpa using ih _ _ _ _ _ _ _
        · simpa using ih _ _ _ _ _ _ _

/-- `lateGen` preserves `min_instr_count`. -/
theorem lateGen_g_min (b : GAB) (g : GlobalState) :
    (lateGen b g).g.min_instr_count = g.min_instr_count := by
  simp only [lateGen]
  split
  · split <;> simp [lateGenLoop_g_min]
  · rfl

/-- One emission step consumes at most the head of the pending late-rodata
queue: the remaining queue is always a `drop` of the original, indexed by
emitted-minus-skipped, and each step emits exactly one statement. -/
theorem emitOne_stack_drop (ic line : Nat) (L : List String) (st : EmitState)
    (h1 : st.totSkipped ≤ st.totEmitted)
    (h2 : st.stack = L.drop (st.totEmitted - st.totSkipped)) :
    (emitOne ic line st).totSkipped ≤ (emitOne ic line st).totEmitted ∧
    (emitOne ic line st).stack =
      L.drop ((emitOne ic line st).totEmitted - (emitOne ic line st).totSkipped) ∧
    (emitOne ic line st).totEmitted = st.totEmitted + 1 := by
  obtain ⟨src, g, tot, skip, fne, fns, skp, stk⟩ := st
  simp only at h1 h2
  have hsub : tot + 1 - skip = (tot - skip) + 1 := by omega
  cases stk with
  | nil =>
    have hnil : L.drop (tot + 1 - skip) = [] := by
      rw [hsub, ← List.tail_drop, ← h2]
      rfl
    simp only [emitOne, GlobalState.makeName]
    split_ifs <;> dsimp only at *
    all_goals refine ⟨by omega, ?_, rfl⟩
    all_goals first
      | exact hnil.symm
      | (have he : tot + 1 - (skip + 1) = tot - skip := by omega
         rw [he]
         exact h2)
  | cons top rest =>
    have hcons : L.drop (tot + 1 - skip) = rest := by
      rw [hsub, ← List.tail_drop, ← h2]
      rfl
    simp only [emitOne, GlobalState.makeName]
    split_ifs <;> dsimp only at *
    all_goals refine ⟨by omega, ?_, rfl⟩
    all_goals first
      | exact hcons.symm
      | (have he : tot + 1 - (skip + 1) = tot - skip := by omega
         rw [he]
         exact h2)

/-- The stack-drop invariant lifted through `emitCount`. -/
theorem emitCount_stack_drop (ic line : Nat) (L : List String) :
    ∀ (n : Nat) (st : EmitState),
      st.totSkipped ≤ st.totEmitted →
      st.stack = L.drop (st.totEmitted - st.totSkipped) →
      (emitCount ic line n st).totSkipped ≤ (emitCount ic line n st).totEmitted ∧
      (emitCount ic line n st).stack =
        L.drop ((emitCount ic line n st).totEmitted - (emitCount ic line n st).totSkipped) ∧
      (emitCount ic line n st).totEmitted = st.totEmitted + n := by
  intro n
  induction n with
  | zero =>
    intro st h1 h2
    exact ⟨h1, h2, rfl⟩
  | succ n ih =>
    intro st h1 h2
    have hone := emitOne_stack_drop ic line L st h1 h2
    have := ih (emitOne ic line st) hone.1 hone.2.1
    simp only [emitCount]
    exact ⟨this.1, this.2.1, by omega⟩

/-- The stack-drop invariant over the whole emission loop: afterwards the
pending queue is the original late-rodata output minus one entry per
non-skipped emitted statement, and the emitted total is the sum of the
per-line counts. -/
theorem emitAll_stack_drop (ic : Nat) (L : List String) :
    ∀ (inds : List (Nat × Nat)) (st : EmitState),
      st.totSkipped ≤ st.totEmitted →
      st.stack = L.drop (st.totEmitted - st.totSkipped) →
      (emitAll ic inds st).totSkipped ≤ (emitAll ic inds st).totEmitted ∧
      (emitAll ic inds st).stack =
        L.drop ((emitAll ic inds st).totEmitted - (emitAll ic inds st).totSkipped) ∧
      (emitAll ic inds st).totEmitted = st.totEmitted + sumCounts inds := by
  intro inds
  induction inds with
  | nil =>
    intro st h1 h2
    exact ⟨h1, h2, by simp [emitAll, sumCounts]⟩
  | cons lc rest ih =>
    intro st h1 h2
    have hc := emitCount_stack_drop ic lc.1 L lc.2 st h1 h2
    have := ih (emitCount ic lc.1 lc.2 st) hc.1 hc.2.1
    simp only [emitAll, List.foldl_cons] at this ⊢
    refine ⟨this.1, this.2.1, ?_⟩
    have hsum : sumCounts (lc :: rest) = lc.2 + sumCounts rest := by
      simp [sumCounts]
    omega

/-- `finishEmitRun` starts with queue `(lateGen b g).out` and counters at
zero, so afterwards the three invariants hold with the emitted total equal
to the whole `fn_ins_inds` count sum. -/
theorem finishEmitRun_stack_drop (b : GAB) (g : GlobalState) :
    (finishEmitRun b g).totSkipped ≤ (finishEmitRun b g).totEmitted ∧
    (finishEmitRun b g).stack =
      (lateGen b g).out.drop
        ((finishEmitRun b g).totEmitted - (finishEmitRun b g).totSkipped) ∧
    (finishEmitRun b g).totEmitted = sumCounts b.fn_ins_inds := by
  simp only [finishEmitRun, GlobalState.makeName]
  have := emitAll_stack_drop (b.fn_section_sizes.text / 4) (lateGen b g).out
    b.fn_ins_inds
    ⟨modifyAt
        (modifyAt (List.replicate (b.num_lines + 1) "") 0
          (fun _ => ((lateGen b g).g.makeName "func").2.funcPrologue
            ((lateGen b g).g.makeName "func").1))
        b.num_lines (fun _ => ((lateGen b g).g.makeName "func").2.funcEpilogue),
      ((lateGen b g).g.makeName "func").2, 0, 0, 0, 0, true, (lateGen b g).out⟩
    (by simp) (by simp)
  simp only [GlobalState.makeName] at this
  exact ⟨this.1, this.2.1, by simpa using this.2.2⟩

/-- The filler part of `finish` can fail only with the two Pascal
unsupported-section errors, never with the ratio error. -/
theorem finishFillers_no_ratio (b : GAB) (src : List String) (tn : Option String)
    (lr : LateGenResult) (g : GlobalState) (s a : Nat) :
    finishFillers b src tn lr g ≠ Except.error (PErr.lateRodataRatioTooHigh s a) := by
  simp only [finishFillers, bind, Except.bind, pure, Except.pure]
  split_ifs <;> simp

/-- C5: `finish` fails with the late-rodata ratio error if and only if the
queued late-rodata statements do not all fit into the available
(non-skipped) text instruction slots.  The hypotheses pin down the
well-formed situation produced by `process_line`: the per-line instruction
counts sum to the text-section instruction count, and the block is not
already rejected as too short. -/
theorem c5_ratio_error_iff (b : GAB) (g : GlobalState)
    (hmin : g.min_instr_count ≤ b.fn_section_sizes.text / 4)
    (hwf : sumCounts b.fn_ins_inds = b.fn_section_sizes.text / 4) :
    (∃ s a, b.finish g = Except.error (PErr.lateRodataRatioTooHigh s a)) ↔
      b.fn_section_sizes.text / 4 - (finishEmitRun b g).totSkipped <
        (lateGen b g).out.length := by
  have hfer := finishEmitRun_stack_drop b g
  have hnr := finishFillers_no_ratio b
  simp only [GAB.finish]
  by_cases hc : (0 < b.fn_section_sizes.text ∨ ¬ (lateGen b g).out = [])
  · rw [if_pos hc]
    have hm2 : ¬ (b.fn_section_sizes.text / 4 < (lateGen b g).g.min_instr_count) := by
      rw [lateGen_g_min]
      omega
    rw [if_neg hm2]
    by_cases hst : ¬ (finishEmitRun b g).stack = []
    · rw [if_pos hst]
      constructor
      · intro _
        have hlen : ¬ (lateGen b g).out.length ≤
            (finishEmitRun b g).totEmitted - (finishEmitRun b g).totSkipped := by
          intro hle
          exact hst (by rw [hfer.2.1]; exact List.drop_eq_nil_of_le hle)
        omega
      · intro _
        exact ⟨_, _, rfl⟩
    · rw [if_neg hst]
      push_neg at hst
      constructor
      · intro hex
        obtain ⟨s, a, hEq⟩ := hex
        exact absurd hEq (hnr _ _ _ _ s a)
      · intro hlt
        exfalso
        have := congrArg List.length (hfer.2.1.symm.trans hst)
        simp only [List.length_drop, List.length_nil] at this
        omega
  · rw [if_neg hc]
    push_neg at hc
    constructor
    · intro hex
      obtain ⟨s, a, hEq⟩ := hex
      exact absurd hEq (hnr _ _ _ _ s a)
    · intro hlt
      rw [hc.2] at hlt
      simp at hlt

/-- A block with one `.late_rodata` word and a single text instruction:
three queued statements versus one available slot. -/
def c5BlockE : Except PErr GAB :=
  (GAB.new "t").processLines [".late_rodata", ".word 1", ".text", "glabel f", ".space 4"]

/-- The concrete block of `c5BlockE` (processing succeeds on it). -/
def c5Block : GAB :=
  match c5BlockE with
  | .ok b => b
  | .error _ => GAB.new ""

/-- Plain C codegen with `min_instr_count = skip_instr_count = 0`. -/
def c5G : GlobalState := GlobalState.new 0 0 false 0 false false

/-- Witness for C5 at a concrete block where the queue does not fit
(3 queued statements, 1 available slot): the ratio error fires. -/
theorem c5_ratio_error_iff_witness :
    (c5G.min_instr_count ≤ c5Block.fn_section_sizes.text / 4 ∧
      sumCounts c5Block.fn_ins_inds = c5Block.fn_section_sizes.text / 4) ∧
    ((∃ s a, c5Block.finish c5G = Except.error (PErr.lateRodataRatioTooHigh s a)) ↔
      c5Block.fn_section_sizes.text / 4 - (finishEmitRun c5Block c5G).totSkipped <
        (lateGen c5Block c5G).out.length) :=
  ⟨⟨by decide, by decide⟩, c5_ratio_error_iff c5Block c5G (by decide) (by decide)⟩

/-- A string holds a single physical line: no embedded newline. -/
def noNl (s : String) : Prop := '\n' ∉ s.data

instance (s : String) : Decidable (noNl s) := by
  unfold noNl
  infer_instance

/-- The number of newline characters of a string: a text of `n` physical
lines each terminated by a newline has `countNl = n`. -/
def countNl (s : String) : Nat := (s.data.filter (fun c => c = '\n')).length

/-- C2 counterexample: under `#pragma asmproc recurse`, the `#include`
line's slot receives the whole (multi-line) output of the recursive run,
so the 2-line input produces 3 slots but 5 physical output lines, not
2 + 1 = 3 as claimed. -/
def c2Env : Env :=
  [("main.c", ["#pragma asmproc recurse", "#include \"inc.c\""]), ("inc.c\"", ["x"])]

/-- `-O2` C arguments for the C2 runs. -/
def c2Args : Args := ⟨.O2, false, false, false, false, false, false⟩

/-- C2 counterexample theorem: the run succeeds with 3 output slots but
5 physical output lines (the spliced slot holds 3 lines), refuting the
claimed `input + 1` physical line count of 3. -/
theorem c2_recursion_counterexample :
    (parseSourceFuel 2 c2Env c2Args "main.c" true).map
      (fun r => (r.output_lines.length, countNl r.output)) = .ok (3, 5) ∧
    ¬ (5 = 2 + 1) := by decide

theorem noNl_append {a b : String} (ha : noNl a) (hb : noNl b) : noNl (a ++ b) := by
  unfold noNl at ha hb ⊢
  intro hx
  rw [show (a ++ b).data = a.data ++ b.data from rfl] at hx
  rcases List.mem_append.mp hx with h | h
  · exact ha h
  · exact hb h

theorem noNl_mk_subset {l m : List Char} (h : l ⊆ m) (hm : '\n' ∉ m) :
    noNl (String.mk l) := fun hx => hm (h hx)

theorem noNl_data {s : String} (h : noNl s) : '\n' ∉ s.data := h

theorem trimChars_subset (l : List Char) : trimChars l ⊆ l := by
  intro x hx
  simp only [trimChars, List.mem_reverse] at hx
  have h1 := (List.dropWhile_sublist (l := (l.dropWhile isSpaceChar).reverse)
    (p := isSpaceChar)).subset hx
  rw [List.mem_reverse] at h1
  exact (List.dropWhile_sublist (l := l) (p := isSpaceChar)).subset h1

theorem noNl_strTrim {s : String} (h : noNl s) : noNl (strTrim s) :=
  noNl_mk_subset (trimChars_subset s.data) h

theorem splitOnceChars_subset (sub : List Char) :
    ∀ (l b a : List Char), splitOnceChars sub l = some (b, a) → b ⊆ l ∧ a ⊆ l := by
  intro l
  induction l with
  | nil =>
    intro b a h
    simp only [splitOnceChars] at h
    split at h
    · cases h
      exact ⟨List.Subset.refl _, List.Subset.refl _⟩
    · cases h
  | cons c rest ih =>
    intro b a h
    simp only [splitOnceChars] at h
    split at h
    · cases h
      exact ⟨List.nil_subset _, List.drop_subset _ _⟩
    · revert h
      cases hsp : splitOnceChars sub rest with
      | none => intro h; cases h
      | some p =>
        obtain ⟨b2, a2⟩ := p
        intro h
        rw [Option.some.injEq, Prod.mk.injEq] at h
        obtain ⟨rfl, rfl⟩ := h
        have := ih b2 a2 hsp
        exact ⟨List.cons_subset_cons _ this.1, List.subset_cons_of_subset _ this.2⟩

theorem noNl_joinSep {sep : String} (hsep : noNl sep) :
    ∀ {l : List String}, (∀ s ∈ l, noNl s) → noNl (joinSep sep l) := by
  intro l
  induction l with
  | nil => intro _; show noNl ""; decide
  | cons x xs ih =>
    intro h
    match xs with
    | [] => exact h x (by simp)
    | y :: ys =>
      have hx : noNl x := h x (by simp)
      have hrest : noNl (joinSep sep (y :: ys)) := ih (fun s hs => h s (by simp [hs]))
      exact noNl_append (noNl_append hx hsep) hrest

theorem charOfNat_digit_ne_nl (m : Nat) (h : m < 10) : Char.ofNat (48 + m) ≠ '\n' := by
  interval_cases m <;> decide

theorem decReprAux_no_nl : ∀ (fuel n : Nat), '\n' ∉ decReprAux fuel n := by
  intro fuel
  induction fuel with
  | zero => intro n; simp [decReprAux]
  | succ fuel ih =>
    intro n
    match n with
    | 0 => simp [decReprAux]
    | k + 1 =>
      simp only [decReprAux, List.mem_append, List.mem_singleton]
      push_neg
      refine ⟨ih _, ?_⟩
      intro hc
      exact charOfNat_digit_ne_nl ((k + 1) % 10) (Nat.mod_lt _ (by norm_num)) hc.symm

theorem noNl_decRepr (n : Nat) : noNl (decRepr n) := by
  unfold decRepr
  split
  · decide
  · exact decReprAux_no_nl n n

theorem noNl_makeName {g : GlobalState} {cat : String} (hcat : noNl cat) :
    noNl (g.makeName cat).1 :=
  noNl_append (noNl_append (noNl_append (by decide) hcat) (by decide)) (noNl_decRepr _)

theorem noNl_funcPrologue {g : GlobalState} {name : String} (h : noNl name) :
    noNl (g.funcPrologue name) := by
  unfold GlobalState.funcPrologue
  split
  · exact noNl_append (noNl_append (by decide) h) (by decide)
  · exact noNl_append (noNl_append (by decide) h) (by decide)

theorem noNl_funcEpilogue (g : GlobalState) : noNl g.funcEpilogue := by
  unfold GlobalState.funcEpilogue
  split <;> decide

theorem noNl_jtblLineC (n : Nat) : noNl (jtblLineC n) := by
  refine noNl_append (noNl_append (by decide) (noNl_joinSep (by decide) ?_)) (by decide)
  intro s hs
  obtain ⟨k, _, rfl⟩ := List.mem_map.mp hs
  exact noNl_append (noNl_append (by decide) (noNl_decRepr k)) (by decide)

theorem noNl_jtblLineP (n : Nat) : noNl (jtblLineP n) := by
  refine noNl_append (noNl_append (by decide) (noNl_joinSep (by decide) ?_)) (by decide)
  intro s hs
  obtain ⟨k, _, rfl⟩ := List.mem_map.mp hs
  exact noNl_append (noNl_decRepr k) (by decide)

theorem lateGenLoop_out_noNl (b : GAB) (numInstr size : Nat) :
    ∀ (fuel i : Nat) (sk nd en : Bool) (out : List String)
      (dummies : List (List Nat)) (g : GlobalState),
      (∀ s ∈ out, noNl s) →
      ∀ s ∈ (lateGenLoop b numInstr size fuel i sk nd en out dummies g).out, noNl s := by
  intro fuel
  induction fuel with
  | zero => intro i sk nd en out dummies g hout; exact hout
  | succ fuel ih =>
    intro i sk nd en out dummies g hout
    simp only [lateGenLoop, GlobalState.nextLateRodataHex]
    split
    · exact ih _ _ _ _ _ _ _ hout
    · split
      · intro s hs
        simp only [List.mem_append, List.mem_singleton] at hs
        rcases hs with (hs | rfl) | hs
        · exact hout s hs
        · split <;> first | exact noNl_jtblLineP _ | exact noNl_jtblLineC _
        · rw [List.eq_of_mem_replicate hs]
          decide
      · split
        · refine ih _ _ _ _ _ _ _ ?_
          intro s hs
          simp only [List.mem_append, List.mem_singleton] at hs
          rcases hs with ((hs | rfl) | hs) | hs
          · exact hout s hs
          · split <;> decide
          · revert hs
            split <;> intro hs <;> simp at hs <;> rw [hs] <;> decide
          · simp at hs
            rw [hs]
            decide
        · refine ih _ _ _ _ _ _ _ ?_
          intro s hs
          simp only [List.mem_append, List.mem_singleton] at hs
          rcases hs with (hs | rfl) | hs
          · exact hout s hs
          · split <;> decide
          · simp at hs
            rw [hs]
            decide

theorem lateGen_out_noNl (b : GAB) (g : GlobalState) :
    ∀ s ∈ (lateGen b g).out, noNl s := by
  simp only [lateGen]
  split
  · split
    · intro s hs
      simp only [List.mem_append, List.mem_singleton] at hs
      rcases hs with hs | rfl
      · exact lateGenLoop_out_noNl b _ _ _ _ _ _ _ _ _ _ (by simp) s hs
      · decide
    · exact lateGenLoop_out_noNl b _ _ _ _ _ _ _ _ _ _ (by simp)
  · intro s hs
    simp at hs

theorem modifyAt_noNl {f : String → String}
    (hf : ∀ s, noNl s → noNl (f s)) :
    ∀ (l : List String) (i : Nat), (∀ s ∈ l, noNl s) →
      ∀ s ∈ modifyAt l i f, noNl s := by
  intro l
  induction l with
  | nil => intro i hl; simp [modifyAt]
  | cons x xs ih =>
    intro i hl s hs
    match i with
    | 0 =>
      simp only [modifyAt, List.mem_cons] at hs
      rcases hs with rfl | hs
      · exact hf x (hl x (by simp))
      · exact hl s (by simp [hs])
    | n + 1 =>
      simp only [modifyAt, List.mem_cons] at hs
      rcases hs with rfl | hs
      · exact hl _ (by simp)
      · exact ih n (fun t ht => hl t (by simp [ht])) s hs

/-- `emitOne` keeps every output slot and every pending-queue entry
newline-free. -/
theorem emitOne_noNl (ic line : Nat) (st : EmitState)
    (hsrc : ∀ s ∈ st.src, noNl s) (hstk : ∀ s ∈ st.stack, noNl s) :
    (∀ s ∈ (emitOne ic line st).src, noNl s) ∧
    (∀ s ∈ (emitOne ic line st).stack, noNl s) := by
  obtain ⟨src, g, tot, skip, fne, fns, skp, stk⟩ := st
  simp only at hsrc hstk
  simp only [emitOne, GlobalState.makeName]
  have hname : noNl ("_asmpp_" ++ "large_func" ++ "_" ++ decRepr (g.namectr + 1)) :=
    noNl_append (noNl_append (noNl_append (by decide) (by decide)) (by decide))
      (noNl_decRepr _)
  have hsp : ∀ (g2 : GlobalState) (s : String), noNl s →
      noNl (s ++ " " ++ g2.funcEpilogue ++ " " ++
        g2.funcPrologue ("_asmpp_" ++ "large_func" ++ "_" ++ decRepr (g.namectr + 1)) ++ " ") :=
    fun g2 s hs =>
      noNl_append (noNl_append (noNl_append (noNl_append hs (by decide))
        (noNl_funcEpilogue _)) (by decide)) (noNl_funcPrologue hname) |> (noNl_append · (by decide))
  cases stk with
  | nil =>
    split_ifs <;> dsimp only <;> refine ⟨?_, by simp⟩
    all_goals first
      | exact hsrc
      | exact modifyAt_noNl (hsp _) src line hsrc
      | exact modifyAt_noNl (fun s hs => noNl_append hs (by decide)) src line hsrc
      | exact modifyAt_noNl (fun s hs => noNl_append hs (by decide)) _ line
          (modifyAt_noNl (hsp _) src line hsrc)
  | cons top rest =>
    have htop : noNl top := hstk top (by simp)
    have hrest : ∀ s ∈ rest, noNl s := fun s hs => hstk s (by simp [hs])
    split_ifs <;> dsimp only <;>
      refine ⟨?_, by first | exact hrest | exact hstk⟩
    all_goals first
      | exact hsrc
      | exact modifyAt_noNl (hsp _) src line hsrc
      | exact modifyAt_noNl (fun s hs => noNl_append hs htop) src line hsrc
      | exact modifyAt_noNl (fun s hs => noNl_append hs htop) _ line
          (modifyAt_noNl (hsp _) src line hsrc)

theorem emitCount_noNl (ic line : Nat) :
    ∀ (n : Nat) (st : EmitState),
      (∀ s ∈ st.src, noNl s) → (∀ s ∈ st.stack, noNl s) →
      (∀ s ∈ (emitCount ic line n st).src, noNl s) ∧
      (∀ s ∈ (emitCount ic line n st).stack, noNl s) := by
  intro n
  induction n with
  | zero => intro st h1 h2; exact ⟨h1, h2⟩
  | succ n ih =>
    intro st h1 h2
    have hone := emitOne_noNl ic line st h1 h2
    exact ih (emitOne ic line st) hone.1 hone.2

theorem emitAll_noNl (ic : Nat) :
    ∀ (inds : List (Nat × Nat)) (st : EmitState),
      (∀ s ∈ st.src, noNl s) → (∀ s ∈ st.stack, noNl s) →
      (∀ s ∈ (emitAll ic inds st).src, noNl s) ∧
      (∀ s ∈ (emitAll ic inds st).stack, noNl s) := by
  intro inds
  induction inds with
  | nil => intro st h1 h2; exact ⟨h1, h2⟩
  | cons lc rest ih =>
    intro st h1 h2
    have hc := emitCount_noNl ic lc.1 lc.2 st h1 h2
    have := ih (emitCount ic lc.1 lc.2 st) hc.1 hc.2
    simpa only [emitAll, List.foldl_cons] using this

/-- Every slot written by the emission run is newline-free. -/
theorem finishEmitRun_src_noNl (b : GAB) (g : GlobalState) :
    ∀ s ∈ (finishEmitRun b g).src, noNl s := by
  have hname : noNl ((lateGen b g).g.makeName "func").1 := noNl_makeName (by decide)
  have hinit : ∀ s ∈ modifyAt
      (modifyAt (List.replicate (b.num_lines + 1) "") 0
        (fun _ => ((lateGen b g).g.makeName "func").2.funcPrologue
          ((lateGen b g).g.makeName "func").1))
      b.num_lines (fun _ => ((lateGen b g).g.makeName "func").2.funcEpilogue),
      noNl s := by
    apply modifyAt_noNl (fun _ _ => noNl_funcEpilogue _)
    apply modifyAt_noNl (fun _ _ => noNl_funcPrologue hname)
    intro s hs
    rw [List.eq_of_mem_replicate hs]
    decide
  simp only [finishEmitRun, GlobalState.makeName] at hinit ⊢
  exact (emitAll_noNl _ _ _ hinit (lateGen_out_noNl b g)).1

/-- The filler phase only appends newline-free declaration text. -/
theorem finishFillers_src_noNl (b : GAB) (src0 : List String) (tn : Option String)
    (lr : LateGenResult) (g : GlobalState) (hsrc : ∀ s ∈ src0, noNl s) :
    ∀ src2 fn g2, finishFillers b src0 tn lr g = .ok (src2, fn, g2) →
      ∀ s ∈ src2, noNl s := by
  intro src2 fn g2 h
  simp only [finishFillers, GlobalState.makeName, bind, Except.bind, pure, Except.pure] at h
  split_ifs at h <;>
    simp only [Except.ok.injEq, Prod.mk.injEq] at h
  all_goals try exact h.elim
  all_goals obtain ⟨h1, -, -⟩ := h
  all_goals subst h1
  all_goals
    repeat'
      first
        | exact hsrc
        | apply modifyAt_noNl
        | (intro s hs
           repeat'
             first
               | exact hs
               | exact noNl_decRepr _
               | apply noNl_append
               | decide)

/-- Every output slot produced by `finish` is newline-free, whatever the
block contents: the synthesized source is built exclusively from
prologue/epilogue text, dummy statements and filler declarations. -/
theorem finish_src_noNl (b : GAB) (g : GlobalState) :
    ∀ src2 fn g2, b.finish g = .ok (src2, fn, g2) → ∀ s ∈ src2, noNl s := by
  intro src2 fn g2 h
  simp only [GAB.finish] at h
  split_ifs at h
  · exact finishFillers_src_noNl b _ _ _ _ (finishEmitRun_src_noNl b g) src2 fn g2 h
  · refine finishFillers_src_noNl b _ _ _ _ ?_ src2 fn g2 h
    intro s hs
    rw [List.eq_of_mem_replicate hs]
    decide

theorem modifyAt_length (f : String → String) :
    ∀ (l : List String) (i : Nat), (modifyAt l i f).length = l.length := by
  intro l
  induction l with
  | nil => intro i; rfl
  | cons x xs ih =>
    intro i
    match i with
    | 0 => rfl
    | n + 1 => simp [modifyAt, ih n]

theorem modifyAt_head (f : String → String) (l : List String) (i : Nat) (hi : 1 ≤ i) :
    (modifyAt l i f).head? = l.head? := by
  match l, i with
  | [], _ => rfl
  | x :: xs, n + 1 => rfl

theorem writeSrcAt_length :
    ∀ (srcl : List String) (out : List String) (start : Nat),
      (writeSrcAt out start srcl).length = out.length := by
  intro srcl
  induction srcl with
  | nil => intro out start; rfl
  | cons s rest ih =>
    intro out start
    simp only [writeSrcAt]
    rw [ih, modifyAt_length]

theorem writeSrcAt_noNl :
    ∀ (srcl : List String) (out : List String) (start : Nat),
      (∀ s ∈ out, noNl s) → (∀ s ∈ srcl, noNl s) →
      ∀ s ∈ writeSrcAt out start srcl, noNl s := by
  intro srcl
  induction srcl with
  | nil => intro out start hout _; exact hout
  | cons x rest ih =>
    intro out start hout hsrc
    simp only [writeSrcAt]
    refine ih _ _ ?_ (fun s hs => hsrc s (by simp [hs]))
    exact modifyAt_noNl (fun _ _ => hsrc x (by simp)) out start hout

theorem writeSrcAt_head :
    ∀ (srcl : List String) (out : List String) (start : Nat), 1 ≤ start →
      (writeSrcAt out start srcl).head? = out.head? := by
  intro srcl
  induction srcl with
  | nil => intro out start _; rfl
  | cons x rest ih =>
    intro out start hst
    simp only [writeSrcAt]
    rw [ih _ _ (by omega), modifyAt_head _ _ _ hst]

theorem countNl_append (a b : String) : countNl (a ++ b) = countNl a + countNl b := by
  simp only [countNl]
  rw [show (a ++ b).data = a.data ++ b.data from rfl, List.filter_append, List.length_append]

theorem countNl_of_noNl {s : String} (h : noNl s) : countNl s = 0 := by
  simp only [countNl, List.length_eq_zero, List.filter_eq_nil]
  intro c hc
  simp only [decide_eq_true_eq]
  intro heq
  exact h (heq ▸ hc)

theorem countNl_joinSep :
    ∀ (l : List String), l ≠ [] → (∀ s ∈ l, noNl s) →
      countNl (joinSep "\n" l ++ "\n") = l.length := by
  intro l
  induction l with
  | nil => intro h; exact absurd rfl h
  | cons x xs ih =>
    intro _ h
    match xs with
    | [] =>
      show countNl (x ++ "\n") = 1
      rw [countNl_append, countNl_of_noNl (h x (by simp))]
      decide
    | y :: ys =>
      have hx : noNl x := h x (by simp)
      have hih := ih (by simp) (fun s hs => h s (by simp [hs]))
      show countNl (x ++ "\n" ++ joinSep "\n" (y :: ys) ++ "\n") = (x :: y :: ys).length
      rw [countNl_append, countNl_append, countNl_append, countNl_of_noNl hx]
      rw [countNl_append] at hih
      simp only [List.length_cons] at hih ⊢
      have hnl : countNl "\n" = 1 := by decide
      omega

theorem head_append_of_head {l : List String} {hd : String} (h : l.head? = some hd) :
    ∀ t : List String, (l ++ t).head? = some hd := by
  intro t
  cases l with
  | nil => cases h
  | cons a m => simpa using h

/-- One `parse_source` loop iteration preserves: all slots newline-free,
the early-include flag clear, the first slot, the in-block start index
positivity — and appends exactly one slot. -/
theorem parseOneLine_c2 (env : Env) (args : Args) (infile : String)
    (recurse : String → Except PErr RunResult)
    (lineNo : Nat) (line0 : String) (st st' : PState) (hd : String)
    (hl0 : noNl line0)
    (hnr : strTrim line0 ≠ "#pragma asmproc recurse")
    (h1 : ∀ s ∈ st.outputLines, noNl s)
    (h2 : st.isEarlyInclude = false)
    (h3 : st.outputLines.head? = some hd)
    (h4 : ∀ p si, st.globalAsm = some (p, si) → 1 ≤ si)
    (h : parseOneLine env args infile recurse lineNo line0 st = .ok st') :
    (∀ s ∈ st'.outputLines, noNl s) ∧ st'.isEarlyInclude = false ∧
    st'.outputLines.head? = some hd ∧
    (∀ p si, st'.globalAsm = some (p, si) → 1 ≤ si) ∧
    st'.outputLines.length = st.outputLines.length + 1 := by
  have hlen1 : 1 ≤ st.outputLines.length := by
    cases hol : st.outputLines with
    | nil => rw [hol] at h3; cases h3
    | cons a m => simp [hol]
  have happ : ∀ s ∈ st.outputLines ++ [""], noNl s := by
    intro s hs
    rcases List.mem_append.mp hs with hs | hs
    · exact h1 s hs
    · simp at hs
      rw [hs]
      decide
  have happh : (st.outputLines ++ [""]).head? = some hd := head_append_of_head h3 _
  have hltrim : noNl (strTrim line0) := noNl_strTrim hl0
  simp only [parseOneLine, bind, Except.bind, pure, Except.pure] at h
  split at h
  · -- inside a GLOBAL_ASM block
    rename_i gasm pr heq
    have hsi : 1 ≤ pr := h4 _ _ heq
    split at h
    · revert h
      cases hf : gasm.finish st.gstate with
      | error e => intro h; cases h
      | ok v =>
        obtain ⟨srcl, fn2, gs⟩ := v
        intro h
        rw [Except.ok.injEq] at h
        subst h
        refine ⟨?_, h2, ?_, ?_, ?_⟩
        · exact writeSrcAt_noNl _ _ _ happ (finish_src_noNl gasm st.gstate _ _ _ hf)
        · exact (writeSrcAt_head _ _ _ hsi).trans happh
        · intro p si hcon
          cases hcon
        · rw [writeSrcAt_length]
          simp
    · revert h
      cases hp : gasm.processLine (strTrim line0) with
      | error e => intro h; cases h
      | ok g2 =>
        intro h
        rw [Except.ok.injEq] at h
        subst h
        refine ⟨happ, h2, happh, ?_, by simp⟩
        intro p si hcon
        cases hcon
        exact hsi
  · -- not inside a block
    rename_i heqnone
    split at h
    · -- `GLOBAL_ASM(` opener
      rw [Except.ok.injEq] at h
      subst h
      refine ⟨happ, h2, happh, ?_, by simp⟩
      intro p si hcon
      cases hcon
      simp
    · split at h
      · -- file-based `GLOBAL_ASM("...")` / `INCLUDE_ASM` / `INCLUDE_RODATA`
        repeat' (split at h)
        all_goals try cases h
        -- leaf: INCLUDE, RODATA prologue, missing file
        · rename_i heqsp x1 idx heqidx hrod xe v heqpl hpex
          have hsub := splitOnceChars_subset _ _ _ _ heqsp
          refine ⟨?_, h2, ?_, h4, ?_⟩
          · simp only [setSlot]
            refine modifyAt_noNl (fun _ _ => ?_) _ _ happ
            repeat'
              first
                | apply noNl_append
                | exact noNl_strTrim (noNl_mk_subset
                    (fun c hc => hsub.2 ((trimChars_subset _) ((List.take_subset _ _) hc)))
                    hltrim)
                | exact noNl_mk_subset (fun c hc => hsub.1 ((List.drop_subset _ _) hc)) hltrim
                | decide
          · simp only [setSlot]
            refine (modifyAt_head _ _ _ ?_).trans happh
            simp only [List.length_append, List.length_cons, List.length_nil]
            omega
          · simp only [setSlot, modifyAt_length]
            simp
        -- leaf: INCLUDE, RODATA prologue, file present
        · rename_i v hfin
          refine ⟨?_, h2, ?_, h4, ?_⟩
          · simp only [setSlot]
            refine modifyAt_noNl (fun _ _ => noNl_joinSep (by decide) ?_) _ _ happ
            exact finish_src_noNl _ _ _ _ _ hfin
          · simp only [setSlot]
            refine (modifyAt_head _ _ _ ?_).trans happh
            simp only [List.length_append, List.length_cons, List.length_nil]
            omega
          · simp only [setSlot, modifyAt_length]
            simp
        -- leaf: INCLUDE, plain prologue, missing file
        · rename_i heqsp x1 idx heqidx hrod xe v heqpl hpex
          have hsub := splitOnceChars_subset _ _ _ _ heqsp
          refine ⟨?_, h2, ?_, h4, ?_⟩
          · simp only [setSlot]
            refine modifyAt_noNl (fun _ _ => ?_) _ _ happ
            repeat'
              first
                | apply noNl_append
                | exact noNl_strTrim (noNl_mk_subset
                    (fun c hc => hsub.2 ((trimChars_subset _) ((List.take_subset _ _) hc)))
                    hltrim)
                | exact noNl_mk_subset (fun c hc => hsub.1 ((List.drop_subset _ _) hc)) hltrim
                | decide
          · simp only [setSlot]
            refine (modifyAt_head _ _ _ ?_).trans happh
            simp only [List.length_append, List.length_cons, List.length_nil]
            omega
          · simp only [setSlot, modifyAt_length]
            simp
        -- leaf: INCLUDE, plain prologue, file present
        · rename_i v hfin
          refine ⟨?_, h2, ?_, h4, ?_⟩
          · simp only [setSlot]
            refine modifyAt_noNl (fun _ _ => noNl_joinSep (by decide) ?_) _ _ happ
            exact finish_src_noNl _ _ _ _ _ hfin
          · simp only [setSlot]
            refine (modifyAt_head _ _ _ ?_).trans happh
            simp only [List.length_append, List.length_cons, List.length_nil]
            omega
          · simp only [setSlot, modifyAt_length]
            simp
        -- leaf: `GLOBAL_ASM("file.s")`, missing file
        · refine ⟨?_, h2, ?_, h4, ?_⟩
          · simp only [setSlot]
            refine modifyAt_noNl (fun _ _ => ?_) _ _ happ
            repeat'
              first
                | apply noNl_append
                | exact noNl_mk_subset
                    (fun c hc => (List.take_subset _ _) ((List.drop_subset _ _) hc)) hltrim
                | decide
          · simp only [setSlot]
            refine (modifyAt_head _ _ _ ?_).trans happh
            simp only [List.length_append, List.length_cons, List.length_nil]
            omega
          · simp only [setSlot, modifyAt_length]
            simp
        -- leaf: `GLOBAL_ASM("file.s")`, file present
        · rename_i v hfin
          refine ⟨?_, h2, ?_, h4, ?_⟩
          · simp only [setSlot]
            refine modifyAt_noNl (fun _ _ => noNl_joinSep (by decide) ?_) _ _ happ
            exact finish_src_noNl _ _ _ _ _ hfin
          · simp only [setSlot]
            refine (modifyAt_head _ _ _ ?_).trans happh
            simp only [List.length_append, List.length_cons, List.length_nil]
            omega
          · simp only [setSlot, modifyAt_length]
            simp
      · -- pragma excluded, early-include flag clear: ordinary line
        rw [if_neg (show ¬ st.isEarlyInclude = true by simp [h2])] at h
        repeat' (split at h)
        all_goals cases h
        all_goals refine ⟨?_, h2, ?_, h4, ?_⟩
        all_goals first
          | (simp only [setSlot, floatReplace]
             exact modifyAt_noNl (fun _ _ => hltrim) _ _ happ)
          | (simp only [setSlot]
             refine (modifyAt_head _ _ _ ?_).trans happh
             simp only [List.length_append, List.length_cons, List.length_nil]
             omega)
          | (simp only [setSlot, modifyAt_length]
             simp)

/-- The loop invariant lifted over `parseLinesGo`: a successful run over
`n` remaining lines adds exactly `n` slots and preserves the other
invariants. -/
theorem parseLinesGo_c2 (env : Env) (args : Args) (infile : String)
    (recurse : String → Except PErr RunResult) (hd : String) :
    ∀ (rest : List (Nat × String)) (st st' : PState),
      (∀ p ∈ rest, noNl p.2 ∧ strTrim p.2 ≠ "#pragma asmproc recurse") →
      (∀ s ∈ st.outputLines, noNl s) →
      st.isEarlyInclude = false →
      st.outputLines.head? = some hd →
      (∀ p si, st.globalAsm = some (p, si) → 1 ≤ si) →
      parseLinesGo env args infile recurse rest st = .ok st' →
      (∀ s ∈ st'.outputLines, noNl s) ∧
      st'.outputLines.head? = some hd ∧
      st'.outputLines.length = st.outputLines.length + rest.length := by
  intro rest
  induction rest with
  | nil =>
    intro st st' _ i1 i2 i3 i4 h
    cases h
    exact ⟨i1, i3, by simp⟩
  | cons p rest ih =>
    intro st st' hlines i1 i2 i3 i4 h
    simp only [parseLinesGo, bind, Except.bind] at h
    revert h
    cases hone : parseOneLine env args infile recurse p.1 p.2 st with
    | error e => intro h; cases h
    | ok stm =>
      intro h
      have hp := hlines p (by simp)
      have hstep := parseOneLine_c2 env args infile recurse p.1 p.2 st stm hd
        hp.1 hp.2 i1 i2 i3 i4 hone
      have := ih stm st' (fun q hq => hlines q (by simp [hq]))
        hstep.1 hstep.2.1 hstep.2.2.1 hstep.2.2.2.1 h
      refine ⟨this.1, this.2.1, ?_⟩
      rw [this.2.2, hstep.2.2.2.2]
      simp
      omega

/-- C2 (amended): for an input file whose lines contain no embedded
newline and no `#pragma asmproc recurse` line, a successful `parse_source`
run emits exactly one output slot per input line plus the initial
`#line 1 "<infile>"` slot, every slot is a single physical line, and the
emitted byte stream therefore holds `input + 1` physical lines.  (The
counterexample shows the recursion branch violates the physical-line
claim by splicing a whole recursive output into one slot.) -/
theorem c2_one_slot_per_line (fuel : Nat) (env : Env) (args : Args) (infile : String)
    (encode : Bool) (lines : List String) (r : RunResult)
    (hinf : noNl infile)
    (hlines : readLines env infile = .ok lines)
    (hnl : ∀ l ∈ lines, noNl l)
    (hnp : ∀ l ∈ lines, strTrim l ≠ "#pragma asmproc recurse")
    (h : parseSourceFuel (fuel + 1) env args infile encode = .ok r) :
    r.output_lines.length = lines.length + 1 ∧
    r.output_lines.head? = some ("#line 1 \"" ++ infile ++ "\"") ∧
    (∀ s ∈ r.output_lines, noNl s) ∧
    countNl r.output = lines.length + 1 := by
  simp only [parseSourceFuel, bind, Except.bind, pure, Except.pure] at h
  revert h
  cases hg : mkGlobalState args with
  | error e => intro h; cases h
  | ok g0 =>
    rw [hlines]
    intro h
    dsimp only at h
    split at h
    · cases h
    · rename_i final hgo
      cases h
      have hmem : ∀ p ∈ lines.enum.map (fun p : Nat × String => (p.1 + 1, p.2)),
          noNl p.2 ∧ strTrim p.2 ≠ "#pragma asmproc recurse" := by
        intro p hp
        obtain ⟨q, hq, rfl⟩ := List.mem_map.mp hp
        have hql : q.2 ∈ lines := by
          have := List.mem_map_of_mem Prod.snd hq
          rwa [List.enum_map_snd] at this
        exact ⟨hnl q.2 hql, hnp q.2 hql⟩
      have hrun := parseLinesGo_c2 env args infile
        (fun f => parseSourceFuel fuel env args f false)
        ("#line 1 \"" ++ infile ++ "\"") _
        { gstate := g0
          globalAsm := none
          asmFunctions := []
          outputLines := ["#line 1 \"" ++ infile ++ "\""]
          deps := []
          isCutsceneData := false
          isEarlyInclude := false } final hmem
        (by
          intro s hs
          simp at hs
          rw [hs]
          exact noNl_append (noNl_append (by decide) hinf) (by decide))
        rfl rfl (by intro p si hcon; cases hcon) hgo
      have hlen : final.outputLines.length = lines.length + 1 := by
        rw [hrun.2.2]
        simp [List.enum_length]
        omega
      have hne : final.outputLines ≠ [] := by
        intro hcon
        rw [hcon] at hrun
        cases hrun.2.1
      refine ⟨hlen, hrun.2.1, hrun.1, ?_⟩
      show countNl (joinSep "\n" final.outputLines ++ "\n") = lines.length + 1
      rw [countNl_joinSep final.outputLines hne hrun.1, hlen]

/-- A recursion-free input for the C2 witness. -/
def c2GoodEnv : Env := [("a.c", ["int x;", "GLOBAL_ASM(", ")"])]

/-- The successful run of the C2 witness input. -/
def c2Run : RunResult :=
  match parseSourceFuel 1 c2GoodEnv c2Args "a.c" true with
  | .ok r => r
  | .error _ => ⟨[], [], [], ""⟩

/-- Witness for C2's amended theorem: a 3-line file (one empty
`GLOBAL_ASM` block) yields 4 slots, the `#line` header first, all slots
newline-free, and 4 physical output lines. -/
theorem c2_one_slot_per_line_witness :
    (noNl "a.c" ∧ readLines c2GoodEnv "a.c" = .ok ["int x;", "GLOBAL_ASM(", ")"] ∧
      parseSourceFuel 1 c2GoodEnv c2Args "a.c" true = .ok c2Run) ∧
    (c2Run.output_lines.length = 3 + 1 ∧
      c2Run.output_lines.head? = some ("#line 1 \"" ++ "a.c" ++ "\"") ∧
      (∀ s ∈ c2Run.output_lines, noNl s) ∧
      countNl c2Run.output = 3 + 1) :=
  ⟨⟨by decide, by decide, by decide⟩,
    c2_one_slot_per_line 0 c2GoodEnv c2Args "a.c" true ["int x;", "GLOBAL_ASM(", ")"] c2Run
      (by decide) (by decide) (by decide) (by decide) (by decide)⟩

end AsmProc
